import Mathlib

/-
  Verification development for the buffer-pool core of a BusTub-style DBMS:
  the extendible hash table (src/container/hash/extendible_hash_table.cpp),
  the LRU-K replacer (src/buffer/lru_k_replacer.cpp) and the buffer pool
  manager (src/buffer/buffer_pool_manager_instance.cpp).

  The C++ code is shallowly embedded.  Heap-allocated buckets (shared_ptr
  aliased through the directory) are modelled as an arena of buckets indexed
  by bucket ids; directory slots store bucket ids, and C++ pointer equality
  between directory slots is id equality.  Machine integers are Nat; the
  `size_t` subtraction in LRUKReplacer::Evict is taken modulo 2^64, and the
  C++ sentinel LONG_MAX is the literal 2^63 - 1.  page_id_t values are
  embedded through their std::hash image as size_t, so INVALID_PAGE_ID (-1)
  is 2^64 - 1; std::hash of a non-negative int is the identity.
  The recursive ExtendibleHashTable::Insert is given explicit fuel; `none`
  means the fuel ran out (or, in buffer-pool operations, that a
  BUSTUB_ASSERT fired).
-/

namespace BusTub

/-- Entry list of ExtendibleHashTable::Bucket: `list_` with its capacity
`size_` and `depth_` (local depth).  See Bucket in
extendible_hash_table.cpp. -/
structure Bucket where
  list : List (Nat × Nat)
  size : Nat
  depth : Nat
deriving DecidableEq, Repr

instance : Inhabited Bucket := ⟨⟨[], 0, 0⟩⟩

/-- Bucket::Find: linear scan, value of the first matching key. -/
def Bucket.find (b : Bucket) (key : Nat) : Option Nat :=
  b.list.lookup key

/-- In-place update of the first entry whose key matches, as the scan in
Bucket::Insert does with `it->second = value`. -/
def updateFirst : List (Nat × Nat) → Nat → Nat → List (Nat × Nat)
  | [], _, _ => []
  | e :: rest, key, v =>
    if e.1 = key then (e.1, v) :: rest else e :: updateFirst rest key v

/-- Bucket::Remove: erase the first matching entry, report whether one
existed. -/
def Bucket.removeKey (b : Bucket) (key : Nat) : Bool × Bucket :=
  if (b.list.lookup key).isSome then
    (true, { b with list := b.list.eraseP (fun e => e.1 == key) })
  else (false, b)

/-- Bucket::IsFull.  Modelled from the spec: the accessor lives in the
header (not under src/); a bucket is full when its entry list has reached
the capacity `bucket_size`. -/
def Bucket.isFull (b : Bucket) : Bool :=
  b.list.length == b.size

/-- Bucket::Insert: fail if full, else update in place on a key match,
else append. -/
def Bucket.insert (b : Bucket) (key v : Nat) : Bool × Bucket :=
  if b.list.length == b.size then (false, b)
  else if (b.list.lookup key).isSome then
    (true, { b with list := updateFirst b.list key v })
  else (true, { b with list := b.list ++ [(key, v)] })

/-- ExtendibleHashTable state: `arena` is the heap of buckets (ids are
arena indices, standing for the shared_ptr identities), `dir` holds bucket
ids, plus `global_depth_`, `bucket_size_` and `num_buckets_`. -/
structure Table where
  arena : List Bucket
  dir : List Nat
  globalDepth : Nat
  bucketSize : Nat
  numBuckets : Nat
deriving DecidableEq, Repr

/-- ExtendibleHashTable constructor: one empty bucket at depth 0, a
one-slot directory.  Modelled from the spec for the header initialisers:
global_depth_ starts at 0 and num_buckets_ at 1. -/
def initTable (bucketSize : Nat) : Table :=
  ⟨[⟨[], bucketSize, 0⟩], [0], 0, bucketSize, 1⟩

/-- ExtendibleHashTable::IndexOf: hash of the key masked to the low
global_depth bits; std::hash of an int key is its size_t image, here the
key itself. -/
def Table.IndexOf (t : Table) (key : Nat) : Nat :=
  key &&& (2 ^ t.globalDepth - 1)

/-- The bucket object a directory slot points to. -/
def Table.bucketAt (t : Table) (idx : Nat) : Bucket :=
  t.arena.getD (t.dir.getD idx 0) default

/-- Overwrite one bucket of the arena (a mutation through a shared_ptr). -/
def Table.setBucket (t : Table) (bid : Nat) (b : Bucket) : Table :=
  { t with arena := t.arena.set bid b }

/-- ExtendibleHashTable::Find: delegate to the bucket at dir_[IndexOf key]. -/
def Table.findTable (t : Table) (key : Nat) : Option Nat :=
  (t.bucketAt (t.IndexOf key)).find key

/-- ExtendibleHashTable::Remove: delegate to the bucket at the key's slot. -/
def Table.removeTable (t : Table) (key : Nat) : Bool × Table :=
  let bid := t.dir.getD (t.IndexOf key) 0
  let r := (t.arena.getD bid default).removeKey key
  (r.1, t.setBucket bid r.2)

/-- dir_[idx]->IncrementDepth(). -/
def Table.incDepth (t : Table) (bid : Nat) : Table :=
  t.setBucket bid
    (let b := t.arena.getD bid default; { b with depth := b.depth + 1 })

/-- The directory copy loop of DoubleDir: tmp_dir[i] and tmp_dir[i + 2^g]
both take dir_[i] for every i < 2^g. -/
def Table.copiedDir (t : Table) : List Nat :=
  ((List.range (2 ^ t.globalDepth)).map (fun i => t.dir.getD i 0)) ++
    ((List.range (2 ^ t.globalDepth)).map (fun i => t.dir.getD i 0))

/-- ExtendibleHashTable::DoubleDir: double the directory, allocate a fresh
bucket at depth global_depth_+1 into slot idx + 2^global_depth_, bump
num_buckets_ and global_depth_. -/
def Table.DoubleDir (t : Table) (idx : Nat) : Table :=
  let g := t.globalDepth
  let newId := t.arena.length
  { arena := t.arena ++ [Bucket.mk [] t.bucketSize (g + 1)]
    dir := t.copiedDir.set (idx + 2 ^ g) newId
    globalDepth := g + 1
    bucketSize := t.bucketSize
    numBuckets := t.numBuckets + 1 }

/-- One iteration of the loop in RedistributeBucket: if the entry now
routes to a different bucket object, insert it there (result ignored) and
remove it from the redistributed bucket. -/
def redistStep (bid : Nat) (t : Table) (e : Nat × Nat) : Table :=
  let idx := t.IndexOf e.1
  if t.dir.getD idx 0 ≠ bid then
    let target := t.dir.getD idx 0
    let t1 := t.setBucket target ((t.arena.getD target default).insert e.1 e.2).2
    t1.setBucket bid ((t1.arena.getD bid default).removeKey e.1).2
  else t

/-- ExtendibleHashTable::RedistributeBucket: iterate over a snapshot of the
bucket's items. -/
def Table.RedistributeBucket (t : Table) (bid : Nat) : Table :=
  ((t.arena.getD bid default).list).foldl (redistStep bid) t

/-- The directory-doubling split path of Insert: DoubleDir, increment the
depth of dir_[idx], redistribute that bucket. -/
def splitDouble (t : Table) (idx : Nat) : Table :=
  let t1 := t.DoubleDir idx
  let t2 := t1.incDepth (t1.dir.getD idx 0)
  t2.RedistributeBucket (t2.dir.getD idx 0)

/-- The non-doubling split path with idx below 2^(global_depth_-1):
increment the full bucket's depth, allocate the sibling at depth
global_depth_, rewire slot idx + 2^(global_depth_-1) to it, redistribute
dir_[idx]. -/
def splitLow (t : Table) (idx bid : Nat) : Table :=
  let t1 := t.incDepth bid
  let newId := t1.arena.length
  let t2 := { t1 with arena := t1.arena ++ [Bucket.mk [] t.bucketSize t.globalDepth] }
  let t3 := { t2 with dir := t2.dir.set (idx + 2 ^ (t.globalDepth - 1)) newId }
  t3.RedistributeBucket (t3.dir.getD idx 0)

/-- The non-doubling split path with idx at or above 2^(global_depth_-1):
the sibling replaces slot idx itself and dir_[idx - 2^(global_depth_-1)]
is redistributed. -/
def splitHigh (t : Table) (idx bid : Nat) : Table :=
  let t1 := t.incDepth bid
  let newId := t1.arena.length
  let t2 := { t1 with arena := t1.arena ++ [Bucket.mk [] t.bucketSize t.globalDepth] }
  let t3 := { t2 with dir := t2.dir.set idx newId }
  t3.RedistributeBucket (t3.dir.getD (idx - 2 ^ (t.globalDepth - 1)) 0)

/-- ExtendibleHashTable::Insert with fuel for the retry recursion; `none`
means the fuel ran out.  On a key hit the code re-inserts `tmp`, which
Bucket::Find has just overwritten with the existing value, not the
caller's value. -/
def insertFuel : Nat → Table → Nat → Nat → Option Table
  | 0, _, _, _ => none
  | fuel + 1, t, key, v =>
    let idx := t.IndexOf key
    let bid := t.dir.getD idx 0
    let b := t.arena.getD bid default
    match b.find key with
    | some oldv => some (t.setBucket bid (b.insert key oldv).2)
    | none =>
      if b.isFull then
        if t.globalDepth == b.depth then
          insertFuel fuel (splitDouble t idx) key v
        else if idx < 2 ^ (t.globalDepth - 1) then
          insertFuel fuel (splitLow t idx bid) key v
        else
          insertFuel fuel (splitHigh t idx bid) key v
      else some (t.setBucket bid (b.insert key v).2)

/-- ExtendibleHashTable::GetNumBuckets. -/
def Table.GetNumBuckets (t : Table) : Nat := t.numBuckets

/-- Per-frame record of LRUKReplacer (struct Slot of lru_k_replacer.h):
bounded history of timestamps most-recent first, their count, and the
evictable flag.  Modelled from the spec for the default values of the
header's Slot struct (not under src/): a default-constructed slot has an
empty history with record_nums_ = 0 and is non-evictable. -/
structure Slot where
  records : List Nat
  recordNums : Nat
  evictable : Bool
deriving DecidableEq, Repr

def newSlot : Slot := ⟨[], 0, false⟩

instance : Inhabited Slot := ⟨newSlot⟩

/-- LRUKReplacer state: slots_ (an unordered_map, modelled as an
association list in insertion order), curr_size_, current_timestamp_,
replacer_size_ and k_. -/
structure Replacer where
  slots : List (Nat × Slot)
  currSize : Nat
  currentTimestamp : Nat
  replacerSize : Nat
  k : Nat
deriving DecidableEq, Repr

/-- LRUKReplacer constructor. -/
def initReplacer (numFrames k : Nat) : Replacer :=
  ⟨[], 0, 0, numFrames, k⟩

/-- Update the slot stored under a frame id (slots_[frame_id] mutation). -/
def updSlot (l : List (Nat × Slot)) (f : Nat) (s : Slot) : List (Nat × Slot) :=
  l.map (fun e => if e.1 == f then (f, s) else e)

/-- slots_.erase(frame_id). -/
def eraseSlot (l : List (Nat × Slot)) (f : Nat) : List (Nat × Slot) :=
  l.filter (fun e => e.1 != f)

/-- LRUKReplacer::RecordAccess.  `none` is the BUSTUB_ASSERT "replacer out
of space" firing on an unseen frame when curr_size_ has reached
replacer_size_.  A fresh slot gets the current timestamp pushed and
record_nums_ = 1; an existing slot at k_ records drops its oldest
timestamp; current_timestamp_ always advances. -/
def RecordAccess (r : Replacer) (f : Nat) : Option Replacer :=
  match r.slots.lookup f with
  | none =>
    if r.currSize < r.replacerSize then
      some { r with
        slots := r.slots ++ [(f, { newSlot with records := [r.currentTimestamp], recordNums := 1 })]
        currSize := r.currSize + 1
        currentTimestamp := r.currentTimestamp + 1 }
    else none
  | some s =>
    let s' := if s.recordNums == r.k
      then { s with records := (r.currentTimestamp :: s.records).dropLast }
      else { s with records := r.currentTimestamp :: s.records, recordNums := s.recordNums + 1 }
    some { r with slots := updSlot r.slots f s', currentTimestamp := r.currentTimestamp + 1 }

/-- LRUKReplacer::SetEvictable.  `none` is the BUSTUB_ASSERT on an unknown
frame; curr_size_ moves by one exactly on an actual toggle. -/
def SetEvictable (r : Replacer) (f : Nat) (flag : Bool) : Option Replacer :=
  match r.slots.lookup f with
  | none => none
  | some s =>
    let cs := if s.evictable && !flag then r.currSize - 1
      else if !s.evictable && flag then r.currSize + 1 else r.currSize
    some { r with currSize := cs, slots := updSlot r.slots f { s with evictable := flag } }

/-- The loop accumulator of LRUKReplacer::Evict: max_distance,
min_timestamp, min_record_nums, result and flag.  `result` is an
uninitialised frame_id_t in the C++, read only once flag is set; it is 0
here. -/
structure EvAcc where
  maxDistance : Nat
  minTimestamp : Nat
  minRecordNums : Nat
  resultId : Nat
  flag : Bool
deriving DecidableEq, Repr

/-- LONG_MAX, the sentinel the loop starts from. -/
def longSentinel : Nat := 2 ^ 63 - 1

def initAcc : EvAcc := ⟨0, longSentinel, longSentinel, 0, false⟩

/-- records_->front(): the most recent timestamp of a slot. -/
def frontOf (s : Slot) : Nat := s.records.headD 0

/-- records_->back(): the oldest stored timestamp of a slot. -/
def backOf (s : Slot) : Nat := (s.records.getLast?).getD 0

/-- size_t subtraction, modulo 2^64. -/
def sub64 (a b : Nat) : Nat := (2 ^ 64 + a % 2 ^ 64 - b % 2 ^ 64) % 2 ^ 64

/-- One iteration of the loop in LRUKReplacer::Evict over a slot. -/
def evictStep (k : Nat) (acc : EvAcc) (e : Nat × Slot) : EvAcc :=
  if e.2.recordNums == 0 || !e.2.evictable then acc
  else if e.2.recordNums < k then
    if e.2.recordNums < acc.minRecordNums then
      { acc with flag := true, resultId := e.1, minRecordNums := e.2.recordNums,
                 minTimestamp := frontOf e.2 }
    else if e.2.recordNums == acc.minRecordNums && frontOf e.2 < acc.minTimestamp then
      { acc with flag := true, resultId := e.1, minTimestamp := frontOf e.2 }
    else acc
  else
    if acc.minRecordNums < k then acc
    else
      let tmp := sub64 (frontOf e.2) (backOf e.2)
      if tmp > acc.maxDistance then
        { acc with flag := true, minRecordNums := k, maxDistance := tmp, resultId := e.1 }
      else acc

/-- LRUKReplacer::Evict: run the loop over slots_; on success erase the
victim and decrement curr_size_. -/
def Evict (r : Replacer) : Option (Nat × Replacer) :=
  let acc := r.slots.foldl (evictStep r.k) initAcc
  if acc.flag then
    some (acc.resultId,
      { r with slots := eraseSlot r.slots acc.resultId, currSize := r.currSize - 1 })
  else none

/-- LRUKReplacer::Remove: silently return on an unknown frame; otherwise
BUSTUB_ASSERT (here `none`) unless the slot is evictable, then erase it and
decrement curr_size_. -/
def RemoveFrame (r : Replacer) (f : Nat) : Option Replacer :=
  match r.slots.lookup f with
  | none => some r
  | some s =>
    if s.evictable then
      some { r with currSize := r.currSize - 1, slots := eraseSlot r.slots f }
    else none

/-- LRUKReplacer::Size. -/
def Size (r : Replacer) : Nat := r.currSize

/-- The size_t image of INVALID_PAGE_ID (-1). -/
def INVALIDPID : Nat := 2 ^ 64 - 1

/-- A page frame (class Page).  Modelled from the spec for the header
defaults (page.h is not under src/): page_id_ starts as INVALID_PAGE_ID,
pin_count_ 0, is_dirty_ false; ResetMemory zeroes only the data payload,
abstracted to a single Nat. -/
structure Page where
  pageId : Nat
  pin : Nat
  dirty : Bool
  data : Nat
deriving DecidableEq, Repr

instance : Inhabited Page := ⟨⟨INVALIDPID, 0, false, 0⟩⟩

/-- BufferPoolManagerInstance state, together with the DiskManager
contents (a map page id to payload; DeallocatePage is a disk-side no-op
for this model). -/
structure BPM where
  pages : List Page
  freeList : List Nat
  table : Table
  repl : Replacer
  nextPageId : Nat
  disk : List (Nat × Nat)
deriving DecidableEq, Repr

/-- BufferPoolManagerInstance constructor: every frame on the free list.
bucket_size_ is a header constant not under src/; it is a parameter
here. -/
def initBPM (poolSize k bucketSize : Nat) : BPM :=
  ⟨List.replicate poolSize default, List.range poolSize,
   initTable bucketSize, initReplacer poolSize k, 0, []⟩

/-- Mutate one frame of the pool array. -/
def updPage (ps : List Page) (f : Nat) (g : Page → Page) : List Page :=
  ps.set f (g (ps.getD f default))

/-- DiskManager::WritePage. -/
def diskWrite (d : List (Nat × Nat)) (pid v : Nat) : List (Nat × Nat) :=
  (pid, v) :: d.filter (fun e => e.1 != pid)

/-- DiskManager::ReadPage (unallocated pages read as zero). -/
def diskRead (d : List (Nat × Nat)) (pid : Nat) : Nat :=
  (d.lookup pid).getD 0

/-- BufferPoolManagerInstance::GetNewFrame: pop the free list, else ask
the replacer for a victim.  The same sequence opens NewPgImp inline. -/
def GetNewFrame (b : BPM) : Option (Nat × BPM) :=
  match b.freeList with
  | f :: rest => some (f, { b with freeList := rest })
  | [] =>
    match Evict b.repl with
    | some (f, r1) => some (f, { b with repl := r1 })
    | none => none

/-- The body of NewPgImp once a frame f has been acquired into state b1:
allocate the next page id, write back the outgoing page if dirty, swap
the page-table entries, zero the payload, record the access
non-evictable, set page_id_ and pin_count_. -/
def newPgCont (fuel : Nat) (b1 : BPM) (f : Nat) : Option (Option (Nat × Nat) × BPM) :=
  let pid := b1.nextPageId
  let b2 := { b1 with nextPageId := pid + 1 }
  let pg := b2.pages.getD f default
  let b3 := { b2 with disk := if pg.dirty then diskWrite b2.disk pg.pageId pg.data else b2.disk }
  let b4 := { b3 with table := (b3.table.removeTable (b3.pages.getD f default).pageId).2 }
  match insertFuel fuel b4.table pid f with
  | none => none
  | some tb =>
    let b5 := { b4 with table := tb }
    let b6 := { b5 with pages := updPage b5.pages f (fun p => { p with data := 0 }) }
    match RecordAccess b6.repl f with
    | none => none
    | some r1 =>
      match SetEvictable { b6 with repl := r1 }.repl f false with
      | none => none
      | some r2 =>
        some (some (pid, f),
          { b6 with
            repl := r2
            pages := updPage b6.pages f (fun p => { p with pageId := pid, pin := 1 }) })

/-- BufferPoolManagerInstance::NewPgImp.  The outer Option is `none` when
a BUSTUB_ASSERT fires inside the replacer or the hash-table insert runs
out of fuel; the inner Option is the returned page pointer (`none` is
nullptr, no free and no evictable frame). -/
def NewPgImp (fuel : Nat) (b : BPM) : Option (Option (Nat × Nat) × BPM) :=
  match GetNewFrame b with
  | none => some (none, b)
  | some (f, b1) => newPgCont fuel b1 f

/-- BufferPoolManagerInstance::FetchPgImp.  On a hit: if the pin count is
zero mark non-evictable, record the access, bump the pin.  On a miss:
acquire a frame, write back the outgoing page if dirty, record the access
(twice if the pin count was zero), swap page-table entries, read from
disk and pin. -/
def FetchPgImp (fuel : Nat) (b : BPM) (pid : Nat) : Option (Option Nat × BPM) :=
  match b.table.findTable pid with
  | some f =>
    let step1 := if (b.pages.getD f default).pin == 0 then SetEvictable b.repl f false else some b.repl
    match step1 with
    | none => none
    | some r0 =>
      match RecordAccess r0 f with
      | none => none
      | some r1 =>
        some (some f, { b with
          repl := r1
          pages := updPage b.pages f (fun p => { p with pin := p.pin + 1 }) })
  | none =>
    match GetNewFrame b with
    | none => some (none, b)
    | some (f, b1) =>
      let pg := b1.pages.getD f default
      let b2 := if pg.dirty then { b1 with disk := diskWrite b1.disk pg.pageId pg.data } else b1
      let step1 := if (b2.pages.getD f default).pin == 0 then
          (RecordAccess b2.repl f).bind (fun ra => SetEvictable ra f false)
        else some b2.repl
      match step1 with
      | none => none
      | some r0 =>
        match RecordAccess r0 f with
        | none => none
        | some r1 =>
          let b3 := { b2 with repl := r1 }
          let b4 := { b3 with table := (b3.table.removeTable (b3.pages.getD f default).pageId).2 }
          match insertFuel fuel b4.table pid f with
          | none => none
          | some tb =>
            let b5 := { b4 with table := tb }
            let rd := fun (p : Page) => { p with data := diskRead b5.disk pid, pageId := pid, pin := p.pin + 1 }
            let b6 := { b5 with pages := updPage b5.pages f rd }
            some (some f, b6)

/-- BufferPoolManagerInstance::UnpinPgImp: false when the page is not
resident or its pin count is already zero; otherwise decrement the pin,
mark the frame evictable when the count reaches zero, and assign the
dirty flag from the argument. -/
def UnpinPgImp (b : BPM) (pid : Nat) (d : Bool) : Option (Bool × BPM) :=
  match b.table.findTable pid with
  | none => some (false, b)
  | some f =>
    if (b.pages.getD f default).pin == 0 then some (false, b)
    else
      let b1 := { b with pages := updPage b.pages f (fun p => { p with pin := p.pin - 1 }) }
      let step := if (b1.pages.getD f default).pin == 0 then SetEvictable b1.repl f true else some b1.repl
      match step with
      | none => none
      | some r1 =>
        some (true, { b1 with
          repl := r1
          pages := updPage b1.pages f (fun p => { p with dirty := d }) })

/-- BufferPoolManagerInstance::FlushPgImp. -/
def FlushPgImp (b : BPM) (pid : Nat) : Bool × BPM :=
  match b.table.findTable pid with
  | some f =>
    (true, { b with
      disk := diskWrite b.disk pid (b.pages.getD f default).data
      pages := updPage b.pages f (fun p => { p with dirty := false }) })
  | none => (false, b)

/-- BufferPoolManagerInstance::DeletePgImp: vacuous success when not
resident; failure when pinned; otherwise drop the page-table entry,
remove the frame from the replacer (`none` if its assertion fires), zero
the payload and push the frame on the free list.  The frame's page_id_
field is left untouched. -/
def DeletePgImp (b : BPM) (pid : Nat) : Option (Bool × BPM) :=
  match b.table.findTable pid with
  | none => some (true, b)
  | some f =>
    if (b.pages.getD f default).pin != 0 then some (false, b)
    else
      let b1 := { b with table := (b.table.removeTable pid).2 }
      match RemoveFrame b1.repl f with
      | none => none
      | some r1 =>
        some (true, { b1 with
          repl := r1
          pages := updPage b1.pages f (fun p => { p with data := 0 })
          freeList := b1.freeList ++ [f] })

/-! Concrete traces used by the claim theorems. -/

/-- Fold a list of key-value inserts through insertFuel. -/
def insList (fuel : Nat) (t : Table) (ks : List (Nat × Nat)) : Option Table :=
  ks.foldl (fun acc e => acc.bind (fun tb => insertFuel fuel tb e.1 e.2)) (some t)

/-- Pool of one frame, k = 2, bucket size 4: NewPage yields page 0 pinned. -/
def bpmC1a : BPM := ((NewPgImp 10 (initBPM 1 2 4)).getD (none, initBPM 1 2 4)).2

/-- Fetch page 0 again: pin count 2. -/
def bpmC1b : BPM := ((FetchPgImp 10 bpmC1a 0).getD (none, bpmC1a)).2

/-- Unpin page 0 dirty: pin count 1, dirty flag set. -/
def bpmC1c : BPM := ((UnpinPgImp bpmC1b 0 true).getD (false, bpmC1b)).2

/-- Unpin page 0 clean while the dirty flag is set. -/
def bpmC1d : BPM := ((UnpinPgImp bpmC1c 0 false).getD (false, bpmC1c)).2

/-- Pool of two frames: FetchPage(0) before page id 0 was ever allocated
misses, loads page 0 into frame 0 and puts the entry (0, frame 0) in the
page table. -/
def bpmC4a : BPM := ((FetchPgImp 10 (initBPM 2 2 4) 0).getD (none, initBPM 2 2 4)).2

/-- NewPage then allocates page id 0 (the counter was never advanced)
into frame 1; its page-table insert hits the existing key 0. -/
def bpmC4b : BPM := ((NewPgImp 10 bpmC4a).getD (none, bpmC4a)).2

/-- Pool of two frames: NewPage yields page 0 in frame 0. -/
def bpmC5a : BPM := ((NewPgImp 10 (initBPM 2 2 4)).getD (none, initBPM 2 2 4)).2

/-- Unpin page 0 clean. -/
def bpmC5b : BPM := ((UnpinPgImp bpmC5a 0 false).getD (false, bpmC5a)).2

/-- Delete page 0: frame 0 goes back to the free list. -/
def bpmC5c : BPM := ((DeletePgImp bpmC5b 0).getD (false, bpmC5b)).2

/-- Replacer with k = 3: frame 0 accessed at timestamps 0 and 1, frame 1
accessed at timestamp 2, both evictable. -/
def rC3 : Replacer :=
  (((((RecordAccess (initReplacer 5 3) 0).bind (fun r => RecordAccess r 0)).bind
    (fun r => RecordAccess r 1)).bind (fun r => SetEvictable r 0 true)).bind
    (fun r => SetEvictable r 1 true)).getD (initReplacer 5 3)

/-- A fresh replacer after one RecordAccess on an unseen frame. -/
def rC6 : Replacer := (RecordAccess (initReplacer 10 2) 0).getD (initReplacer 10 2)

/-- Replacer state with one evictable slot (frame 5) and one
non-evictable slot (frame 6). -/
def rC10 : Replacer :=
  ⟨[(5, ⟨[3, 1], 2, true⟩), (6, ⟨[2], 1, false⟩)], 1, 4, 4, 2⟩

/-- Table with bucket size 1 after inserting keys 0, 1, 2: three splits so
far, all of them directory doublings. -/
def tblC7 : Table := (insList 10 (initTable 1) [(0, 100), (1, 101), (2, 102)]).getD (initTable 1)

/-- The same table after inserting key 3, whose insert splits a full
bucket without doubling the directory. -/
def tblC7b : Table := (insertFuel 10 tblC7 3 103).getD (initTable 1)

/-- Table with bucket size 2 after inserting keys 0,4,2,1,3,6,10,5,9: the
bucket holding keys 1 and 3 sits at depth 4 = global depth behind
directory slots 1, 3 and 7. -/
def tblC8 : Table :=
  (insList 12 (initTable 2)
    [(0, 20), (4, 24), (2, 22), (1, 21), (3, 23), (6, 26), (10, 30), (5, 25), (9, 29)]).getD
    (initTable 2)

/-! Predicates used to state the claims. -/

/-- A slot the Evict loop will consider: evictable with a nonempty
history. -/
def isCand (e : Nat × Slot) : Prop :=
  e.2.evictable = true ∧ e.2.recordNums ≠ 0

/-- Infinite backward K-distance: fewer than k recorded accesses. -/
def isInf (k : Nat) (e : Nat × Slot) : Prop :=
  e.2.recordNums < k

/-- The distance the code computes for a finite slot: most recent minus
oldest stored timestamp (as size_t). -/
def spanOf (e : Nat × Slot) : Nat :=
  sub64 (frontOf e.2) (backOf e.2)

/-- Entry q beats entry p in the order the Evict loop realises: an
infinite candidate beats any finite one; among infinite candidates,
fewer recorded accesses, then a smaller most-recent timestamp; among
finite candidates, a larger span. -/
def better (k : Nat) (q p : Nat × Slot) : Prop :=
  isCand q ∧
    ((isInf k q ∧ ¬ isInf k p) ∨
     (isInf k q ∧ isInf k p ∧ (q.2.recordNums < p.2.recordNums ∨
        (q.2.recordNums = p.2.recordNums ∧ frontOf q.2 < frontOf p.2))) ∨
     (¬ isInf k q ∧ ¬ isInf k p ∧ spanOf p < spanOf q))

/-- Loop invariant of LRUKReplacer::Evict after processing a prefix of
slots_. -/
def EvInv (k : Nat) (procd : List (Nat × Slot)) (acc : EvAcc) : Prop :=
  (acc.flag = false →
      acc = initAcc ∧ ∀ q ∈ procd, isCand q → ¬ isInf k q ∧ spanOf q = 0) ∧
  (acc.flag = true → ∃ s,
      (acc.resultId, s) ∈ procd ∧ isCand (acc.resultId, s) ∧
      ((acc.minRecordNums = s.recordNums ∧ s.recordNums < k ∧
          acc.minTimestamp = frontOf s ∧
          ∀ q ∈ procd, isCand q → isInf k q →
            s.recordNums < q.2.recordNums ∨
              (s.recordNums = q.2.recordNums ∧ frontOf s ≤ frontOf q.2)) ∨
       (acc.minRecordNums = k ∧ ¬ s.recordNums < k ∧
          acc.maxDistance = spanOf (acc.resultId, s) ∧ 0 < acc.maxDistance ∧
          (∀ q ∈ procd, isCand q → ¬ isInf k q) ∧
          ∀ q ∈ procd, isCand q → spanOf q ≤ acc.maxDistance)))

/-- The looping configuration of ExtendibleHashTable::Insert on key 7: a
full bucket bid holding exactly keys 1 and 3 at local depth = global
depth, referenced by directory slots 1, 3 and 7. -/
abbrev LoopInvAt (t : Table) (bid g v1 v3 : Nat) : Prop :=
  t.globalDepth = g ∧ 3 ≤ g ∧ t.dir.length = 2 ^ g ∧ bid < t.arena.length ∧
  t.dir.getD 1 0 = bid ∧ t.dir.getD 3 0 = bid ∧ t.dir.getD 7 0 = bid ∧
  t.arena.getD bid default = Bucket.mk [(1, v1), (3, v3)] 2 g

/-- Table states reachable by the public hash-table operations (Find is
pure). -/
inductive ReachableT : Table → Prop where
  | init : ∀ bucketSize, ReachableT (initTable bucketSize)
  | ins : ∀ t t2 fuel key v, ReachableT t → insertFuel fuel t key v = some t2 → ReachableT t2
  | rm : ∀ t key, ReachableT t → ReachableT (t.removeTable key).2

/-- Every directory slot holds an arena index in bounds (and the arena is
nonempty, so the out-of-range default 0 is in bounds too). -/
abbrev dirInBounds (t : Table) : Prop :=
  0 < t.arena.length ∧ ∀ i ∈ t.dir, i < t.arena.length

/-- Every key stored anywhere in the arena satisfies P. -/
abbrev arenaKeysP (t : Table) (P : Nat → Prop) : Prop :=
  ∀ b ∈ t.arena, ∀ e ∈ b.list, P e.1

/-- All keys stored anywhere in the table are below n. -/
abbrev tableKeysBelow (t : Table) (n : Nat) : Prop :=
  arenaKeysP t (fun x => x < n)

/-- The key k is stored nowhere in the table. -/
abbrev kNotIn (t : Table) (k : Nat) : Prop :=
  arenaKeysP t (fun x => x ≠ k)

/-- Number of slots whose evictable flag is set. -/
def countEvictable (l : List (Nat × Slot)) : Nat :=
  (l.filter (fun e => e.2.evictable)).length

/-- Replacer states reachable by the public replacer operations (an
operation that fires a BUSTUB_ASSERT, or a failing Evict, leaves the
state unchanged). -/
inductive ReachableR : Replacer → Prop where
  | init : ∀ n k, ReachableR (initReplacer n k)
  | acc : ∀ r f r2, ReachableR r → RecordAccess r f = some r2 → ReachableR r2
  | sev : ∀ r f flag r2, ReachableR r → SetEvictable r f flag = some r2 → ReachableR r2
  | ev : ∀ r f r2, ReachableR r → Evict r = some (f, r2) → ReachableR r2
  | rmv : ∀ r f r2, ReachableR r → RemoveFrame r f = some r2 → ReachableR r2

/-! Helper lemmas about association lists and getD. -/

theorem lookup_mem {β : Type} {l : List (Nat × β)} {k : Nat} {s : β}
    (h : l.lookup k = some s) : (k, s) ∈ l := by
  induction l with
  | nil => simp [List.lookup] at h
  | cons e rest ih =>
    rw [List.lookup] at h
    by_cases hk : k = e.1
    · subst hk
      simp at h
      subst h
      exact List.mem_cons_self _ _
    · have hb : (k == e.1) = false := by simp [hk]
      rw [hb] at h
      exact List.mem_cons_of_mem _ (ih h)

theorem lookup_none_of_keys {β : Type} {l : List (Nat × β)} {k : Nat}
    (h : ∀ e ∈ l, e.1 ≠ k) : l.lookup k = none := by
  induction l with
  | nil => rfl
  | cons e rest ih =>
    rw [List.lookup]
    have hb : (k == e.1) = false := by
      have := h e (List.mem_cons_self e rest)
      simp [Ne.symm this]
    rw [hb]
    exact ih (fun q hq => h q (List.mem_cons_of_mem e hq))

theorem lookup_append_last {β : Type} {l : List (Nat × β)} {k : Nat} (v : β)
    (h : l.lookup k = none) : (l ++ [(k, v)]).lookup k = some v := by
  induction l with
  | nil => simp [List.lookup]
  | cons e rest ih =>
    rw [List.lookup] at h
    rw [List.cons_append, List.lookup]
    by_cases hk : (k == e.1) = true
    · rw [hk] at h
      simp at h
    · have hb : (k == e.1) = false := by simpa using hk
      rw [hb] at h ⊢
      exact ih h

theorem updSlot_of_keys_ne {l : List (Nat × Slot)} {f : Nat} (s : Slot)
    (h : ∀ e ∈ l, e.1 ≠ f) : updSlot l f s = l := by
  induction l with
  | nil => rfl
  | cons e rest ih =>
    have he : e.1 ≠ f := h e (List.mem_cons_self e rest)
    have h2 := ih (fun q hq => h q (List.mem_cons_of_mem e hq))
    simp only [updSlot, List.map_cons] at h2 ⊢
    rw [if_neg (by simpa using he), h2]

theorem updSlot_keys (l : List (Nat × Slot)) (f : Nat) (s : Slot) :
    (updSlot l f s).map Prod.fst = l.map Prod.fst := by
  unfold updSlot
  rw [List.map_map]
  apply List.map_congr_left
  intro e _
  by_cases h : e.1 = f
  · simp [h]
  · simp [h]

theorem updSlot_lookup_self {l : List (Nat × Slot)} {f : Nat} {s0 : Slot} (s : Slot)
    (h : l.lookup f = some s0) : (updSlot l f s).lookup f = some s := by
  induction l with
  | nil => simp [List.lookup] at h
  | cons e rest ih =>
    by_cases hk : f = e.1
    · have he : (e.1 == f) = true := by simpa using hk.symm
      simp only [updSlot, List.map_cons]
      rw [if_pos he, List.lookup]
      simp
    · rw [List.lookup, show (f == e.1) = false by simpa using hk] at h
      have h3 := ih h
      simp only [updSlot, List.map_cons] at h3 ⊢
      rw [if_neg (by simpa using fun hef : e.1 = f => hk hef.symm), List.lookup,
        show (f == e.1) = false by simpa using hk]
      exact h3

theorem eraseSlot_lookup_self (l : List (Nat × Slot)) (f : Nat) :
    (eraseSlot l f).lookup f = none := by
  apply lookup_none_of_keys
  intro e he
  have h2 := List.of_mem_filter he
  simpa using h2

theorem eraseSlot_sub (l : List (Nat × Slot)) (f : Nat) :
    ∀ e ∈ eraseSlot l f, e ∈ l := by
  intro e he
  exact List.mem_of_mem_filter he

theorem eraseSlot_keys_nodup {l : List (Nat × Slot)} (f : Nat)
    (h : (l.map Prod.fst).Nodup) : ((eraseSlot l f).map Prod.fst).Nodup := by
  exact ((List.filter_sublist l).map Prod.fst).nodup h

theorem countEvictable_cons (e : Nat × Slot) (l : List (Nat × Slot)) :
    countEvictable (e :: l) = (if e.2.evictable then 1 else 0) + countEvictable l := by
  simp only [countEvictable, List.filter_cons]
  cases he : e.2.evictable <;> simp [he, Nat.add_comm]

theorem countEvictable_updSlot {l : List (Nat × Slot)} {f : Nat} {s0 : Slot} (s : Slot)
    (hnd : (l.map Prod.fst).Nodup) (h : l.lookup f = some s0) :
    countEvictable (updSlot l f s) + (if s0.evictable then 1 else 0) =
      countEvictable l + (if s.evictable then 1 else 0) := by
  induction l with
  | nil => simp [List.lookup] at h
  | cons e rest ih =>
    simp only [List.map_cons, List.nodup_cons] at hnd
    by_cases hk : f = e.1
    · have hh : s0 = e.2 := by
        rw [List.lookup, show (f == e.1) = true by simpa using hk] at h
        exact (Option.some.injEq _ _ ▸ h).symm
      have hrest : updSlot rest f s = rest := by
        apply updSlot_of_keys_ne
        intro q hq hqf
        apply hnd.1
        rw [← hk, ← hqf]
        exact List.mem_map_of_mem Prod.fst hq
      simp only [updSlot, List.map_cons]
      rw [if_pos (by simpa using hk.symm)]
      rw [show List.map (fun e => if (e.1 == f) = true then (f, s) else e) rest
            = updSlot rest f s from rfl, hrest]
      rw [countEvictable_cons, countEvictable_cons]
      subst hh
      cases he2 : e.2.evictable <;> cases hss : s.evictable <;> simp [he2, hss] <;> omega
    · have hb : (f == e.1) = false := by simpa using hk
      rw [List.lookup, hb] at h
      have h4 := ih hnd.2 h
      simp only [updSlot, List.map_cons]
      rw [if_neg (by simpa using fun hef : e.1 = f => hk hef.symm)]
      rw [show List.map (fun e => if (e.1 == f) = true then (f, s) else e) rest
            = updSlot rest f s from rfl]
      rw [countEvictable_cons, countEvictable_cons]
      omega

theorem countEvictable_eraseSlot {l : List (Nat × Slot)} {f : Nat} {s : Slot}
    (hnd : (l.map Prod.fst).Nodup) (hm : (f, s) ∈ l) :
    countEvictable (eraseSlot l f) + (if s.evictable then 1 else 0) = countEvictable l := by
  induction l with
  | nil => simp at hm
  | cons e rest ih =>
    simp only [List.map_cons, List.nodup_cons] at hnd
    rcases List.mem_cons.mp hm with he | he
    · have hrest : eraseSlot rest f = rest := by
        apply List.filter_eq_self.mpr
        intro q hq
        simp only [bne_iff_ne, ne_eq]
        intro hqf
        apply hnd.1
        rw [show e.1 = f by rw [← he], ← hqf]
        exact List.mem_map_of_mem Prod.fst hq
      simp only [eraseSlot, List.filter_cons]
      rw [show ((e.1 != f) : Bool) = false by rw [← he]; simp]
      simp only [eraseSlot] at hrest
      rw [if_neg (by simp), hrest, countEvictable_cons]
      rw [show e.2 = s by rw [← he]]
      cases hss : s.evictable <;> simp [hss] <;> omega
    · have hf : e.1 ≠ f := by
        intro hef
        apply hnd.1
        rw [hef]
        exact List.mem_map_of_mem Prod.fst he
      simp only [eraseSlot, List.filter_cons]
      rw [if_pos (by simpa using hf)]
      have h4 := ih hnd.2 he
      simp only [eraseSlot] at h4
      rw [countEvictable_cons, countEvictable_cons]
      omega

theorem getD_set_self {α : Type} {l : List α} {i : Nat} (a d : α) (h : i < l.length) :
    (l.set i a).getD i d = a := by
  rw [List.getD_eq_getElem _ _ (by simpa using h), List.getElem_set_self]

theorem getD_set_ne {α : Type} (l : List α) {i j : Nat} (a d : α) (h : i ≠ j) :
    (l.set i a).getD j d = l.getD j d := by
  rw [List.getD_eq_getElem?_getD, List.getD_eq_getElem?_getD, List.getElem?_set_ne h]

theorem getD_append_left {α : Type} {l l2 : List α} {i : Nat} (d : α) (h : i < l.length) :
    (l ++ l2).getD i d = l.getD i d :=
  List.getD_append _ _ _ _ h

theorem rangeMap_getD {m j : Nat} (f : Nat → Nat) (h : j < m) :
    ((List.range m).map f).getD j 0 = f j := by
  rw [List.getD_eq_getElem?_getD, List.getElem?_map, List.getElem?_range h]
  rfl

theorem updPage_length (ps : List Page) (f : Nat) (g : Page → Page) :
    (updPage ps f g).length = ps.length := by
  simp only [updPage, List.length_set]

theorem updPage_getD_self {ps : List Page} {f : Nat} (g : Page → Page) (h : f < ps.length) :
    (updPage ps f g).getD f default = g (ps.getD f default) :=
  getD_set_self _ _ h

/-! Structural facts about the split paths of Insert. -/

theorem redistStep_fields (bid : Nat) (t : Table) (e : Nat × Nat) :
    (redistStep bid t e).dir = t.dir ∧ (redistStep bid t e).globalDepth = t.globalDepth ∧
    (redistStep bid t e).arena.length = t.arena.length ∧
    (redistStep bid t e).bucketSize = t.bucketSize := by
  unfold redistStep
  by_cases h : t.dir.getD (t.IndexOf e.1) 0 ≠ bid
  · rw [if_pos h]
    simp [Table.setBucket]
  · rw [if_neg h]
    exact ⟨rfl, rfl, rfl, rfl⟩

theorem redistFold_fields (bid : Nat) (items : List (Nat × Nat)) :
    ∀ t : Table, (items.foldl (redistStep bid) t).dir = t.dir ∧
      (items.foldl (redistStep bid) t).globalDepth = t.globalDepth ∧
      (items.foldl (redistStep bid) t).arena.length = t.arena.length ∧
      (items.foldl (redistStep bid) t).bucketSize = t.bucketSize := by
  induction items with
  | nil => intro t; exact ⟨rfl, rfl, rfl, rfl⟩
  | cons e rest ih =>
    intro t
    obtain ⟨h1, h2, h3, h4⟩ := ih (redistStep bid t e)
    obtain ⟨g1, g2, g3, g4⟩ := redistStep_fields bid t e
    rw [List.foldl_cons]
    exact ⟨h1.trans g1, h2.trans g2, h3.trans g3, h4.trans g4⟩

theorem RedistributeBucket_fields (t : Table) (bid : Nat) :
    (t.RedistributeBucket bid).dir = t.dir ∧
      (t.RedistributeBucket bid).globalDepth = t.globalDepth ∧
      (t.RedistributeBucket bid).arena.length = t.arena.length ∧
      (t.RedistributeBucket bid).bucketSize = t.bucketSize :=
  redistFold_fields bid _ t

theorem copiedDir_length (t : Table) :
    t.copiedDir.length = 2 ^ t.globalDepth + 2 ^ t.globalDepth := by
  simp [Table.copiedDir]

theorem RedistributeBucket_dir (t : Table) (bid : Nat) :
    (t.RedistributeBucket bid).dir = t.dir :=
  (RedistributeBucket_fields t bid).1

theorem RedistributeBucket_g (t : Table) (bid : Nat) :
    (t.RedistributeBucket bid).globalDepth = t.globalDepth :=
  (RedistributeBucket_fields t bid).2.1

theorem RedistributeBucket_alen (t : Table) (bid : Nat) :
    (t.RedistributeBucket bid).arena.length = t.arena.length :=
  (RedistributeBucket_fields t bid).2.2.1

theorem RedistributeBucket_bsize (t : Table) (bid : Nat) :
    (t.RedistributeBucket bid).bucketSize = t.bucketSize :=
  (RedistributeBucket_fields t bid).2.2.2

theorem splitDouble_fields (t : Table) (idx : Nat) :
    (splitDouble t idx).globalDepth = t.globalDepth + 1 ∧
    (splitDouble t idx).dir.length = 2 ^ (t.globalDepth + 1) ∧
    (splitDouble t idx).arena.length = t.arena.length + 1 ∧
    (splitDouble t idx).bucketSize = t.bucketSize := by
  unfold splitDouble
  simp only [RedistributeBucket_dir, RedistributeBucket_g, RedistributeBucket_alen,
    RedistributeBucket_bsize, Table.incDepth, Table.setBucket, Table.DoubleDir,
    List.length_set, List.length_append, List.length_cons, List.length_nil,
    eq_self_iff_true, and_true, true_and]
  rw [copiedDir_length, pow_succ]
  omega

theorem splitLow_fields (t : Table) (idx bid : Nat) :
    (splitLow t idx bid).globalDepth = t.globalDepth ∧
    (splitLow t idx bid).dir.length = t.dir.length ∧
    (splitLow t idx bid).arena.length = t.arena.length + 1 ∧
    (splitLow t idx bid).bucketSize = t.bucketSize := by
  unfold splitLow
  simp only [RedistributeBucket_dir, RedistributeBucket_g, RedistributeBucket_alen,
    RedistributeBucket_bsize, Table.incDepth, Table.setBucket,
    List.length_set, List.length_append, List.length_cons, List.length_nil,
    eq_self_iff_true, and_true, true_and]


theorem splitHigh_fields (t : Table) (idx bid : Nat) :
    (splitHigh t idx bid).globalDepth = t.globalDepth ∧
    (splitHigh t idx bid).dir.length = t.dir.length ∧
    (splitHigh t idx bid).arena.length = t.arena.length + 1 ∧
    (splitHigh t idx bid).bucketSize = t.bucketSize := by
  unfold splitHigh
  simp only [RedistributeBucket_dir, RedistributeBucket_g, RedistributeBucket_alen,
    RedistributeBucket_bsize, Table.incDepth, Table.setBucket,
    List.length_set, List.length_append, List.length_cons, List.length_nil,
    eq_self_iff_true, and_true, true_and]


theorem insertFuel_dirPow {fuel : Nat} : ∀ {t t2 : Table} {key v : Nat},
    insertFuel fuel t key v = some t2 → t.dir.length = 2 ^ t.globalDepth →
    t2.dir.length = 2 ^ t2.globalDepth := by
  induction fuel with
  | zero =>
    intro t t2 key v h _
    simp [insertFuel] at h
  | succ n ih =>
    intro t t2 key v h hp
    rw [insertFuel] at h
    cases hfind : (t.arena.getD (t.dir.getD (t.IndexOf key) 0) default).find key with
    | some oldv =>
      rw [hfind] at h
      simp only [Option.some.injEq] at h
      rw [← h]
      exact hp
    | none =>
      rw [hfind] at h
      by_cases hfull : (t.arena.getD (t.dir.getD (t.IndexOf key) 0) default).isFull = true
      · rw [if_pos hfull] at h
        by_cases heq : (t.globalDepth == (t.arena.getD (t.dir.getD (t.IndexOf key) 0) default).depth) = true
        · rw [if_pos heq] at h
          apply ih h
          obtain ⟨g1, g2, _, _⟩ := splitDouble_fields t (t.IndexOf key)
          rw [g1, g2]
        · rw [if_neg heq] at h
          by_cases hlt : t.IndexOf key < 2 ^ (t.globalDepth - 1)
          · rw [if_pos hlt] at h
            apply ih h
            obtain ⟨g1, g2, _, _⟩ := splitLow_fields t (t.IndexOf key) (t.dir.getD (t.IndexOf key) 0)
            rw [g1, g2, hp]
          · rw [if_neg hlt] at h
            apply ih h
            obtain ⟨g1, g2, _, _⟩ := splitHigh_fields t (t.IndexOf key) (t.dir.getD (t.IndexOf key) 0)
            rw [g1, g2, hp]
      · rw [if_neg hfull] at h
        simp only [Option.some.injEq] at h
        rw [← h]
        exact hp

theorem reachable_dirPow {t : Table} (h : ReachableT t) :
    t.dir.length = 2 ^ t.globalDepth := by
  induction h with
  | init bucketSize => rfl
  | ins t t2 fuel key v _ hins ih => exact insertFuel_dirPow hins ih
  | rm t key _ ih => exact ih

/-! Facts about the Evict loop used for membership of the victim. -/

/-- Whenever the loop accumulator has its flag set, the tracked result is
an evictable slot with nonempty history among the processed entries. -/
def accOkay (procd : List (Nat × Slot)) (acc : EvAcc) : Prop :=
  acc.flag = true →
    ∃ s, (acc.resultId, s) ∈ procd ∧ s.evictable = true ∧ s.recordNums ≠ 0

theorem evictStep_accOkay (k : Nat) (procd : List (Nat × Slot)) (acc : EvAcc)
    (e : Nat × Slot) (h : accOkay procd acc) :
    accOkay (procd ++ [e]) (evictStep k acc e) := by
  have hmono : accOkay (procd ++ [e]) acc := by
    intro hf
    obtain ⟨s, hs, h1, h2⟩ := h hf
    exact ⟨s, List.mem_append_left _ hs, h1, h2⟩
  have hself : ∀ acc2 : EvAcc, acc2.resultId = e.1 → acc2.flag = true →
      e.2.evictable = true → e.2.recordNums ≠ 0 → accOkay (procd ++ [e]) acc2 := by
    intro acc2 hres _ hev hnz _
    refine ⟨e.2, ?_, hev, hnz⟩
    rw [hres]
    exact List.mem_append_right _ (by simp)
  unfold evictStep
  by_cases h0 : (e.2.recordNums == 0 || !e.2.evictable) = true
  · rw [if_pos h0]
    exact hmono
  · have hev : e.2.evictable = true := by
      simp only [Bool.or_eq_true, beq_iff_eq, Bool.not_eq_true'] at h0
      push_neg at h0
      exact Bool.not_eq_false _ ▸ (by simpa using h0.2)
    have hnz : e.2.recordNums ≠ 0 := by
      simp only [Bool.or_eq_true, beq_iff_eq, Bool.not_eq_true'] at h0
      push_neg at h0
      exact h0.1
    rw [if_neg h0]
    by_cases h1 : e.2.recordNums < k
    · rw [if_pos h1]
      by_cases h2 : e.2.recordNums < acc.minRecordNums
      · rw [if_pos h2]
        exact hself _ rfl rfl hev hnz
      · rw [if_neg h2]
        by_cases h3 : (e.2.recordNums == acc.minRecordNums &&
            decide (frontOf e.2 < acc.minTimestamp)) = true
        · rw [if_pos h3]
          exact hself _ rfl rfl hev hnz
        · rw [if_neg h3]
          exact hmono
    · rw [if_neg h1]
      by_cases h2 : acc.minRecordNums < k
      · rw [if_pos h2]
        exact hmono
      · rw [if_neg h2]
        by_cases h3 : sub64 (frontOf e.2) (backOf e.2) > acc.maxDistance
        · rw [if_pos h3]
          exact hself _ rfl rfl hev hnz
        · rw [if_neg h3]
          exact hmono

theorem foldl_accOkay (k : Nat) (l : List (Nat × Slot)) :
    ∀ (acc : EvAcc) (procd : List (Nat × Slot)), accOkay procd acc →
      accOkay (procd ++ l) (l.foldl (evictStep k) acc) := by
  induction l with
  | nil =>
    intro acc procd h
    simpa using h
  | cons e rest ih =>
    intro acc procd h
    rw [List.foldl_cons]
    have h2 := ih (evictStep k acc e) (procd ++ [e]) (evictStep_accOkay k procd acc e h)
    simpa using h2

theorem evictLoop_accOkay (k : Nat) (l : List (Nat × Slot)) :
    accOkay l (l.foldl (evictStep k) initAcc) := by
  have h0 : accOkay [] initAcc := by
    intro h
    simp [initAcc] at h
  have h2 := foldl_accOkay k l initAcc [] h0
  simpa using h2

theorem evict_mem {r : Replacer} {f : Nat} {r2 : Replacer}
    (h : Evict r = some (f, r2)) :
    ∃ s, (f, s) ∈ r.slots ∧ s.evictable = true ∧ s.recordNums ≠ 0 ∧
      r2 = { r with slots := eraseSlot r.slots f, currSize := r.currSize - 1 } := by
  unfold Evict at h
  by_cases hf : (r.slots.foldl (evictStep r.k) initAcc).flag = true
  · rw [if_pos hf] at h
    obtain ⟨s, hs, h1, h2⟩ := evictLoop_accOkay r.k r.slots hf
    simp only [Option.some.injEq, Prod.mk.injEq] at h
    obtain ⟨hres, hr2⟩ := h
    refine ⟨s, ?_, h1, h2, ?_⟩
    · rw [← hres]
      exact hs
    · rw [← hr2, hres]
  · rw [if_neg hf] at h
    cases h

/-! Further association-list counting facts. -/

theorem lookup_none_keys {β : Type} {l : List (Nat × β)} {k : Nat}
    (h : l.lookup k = none) : ∀ e ∈ l, e.1 ≠ k := by
  induction l with
  | nil => intro e he; cases he
  | cons e rest ih =>
    rw [List.lookup] at h
    intro q hq
    rcases List.mem_cons.mp hq with hq | hq
    · subst hq
      intro hqk
      rw [show (k == q.1) = true by simpa using hqk.symm] at h
      cases h
    · by_cases hk : (k == e.1) = true
      · rw [hk] at h
        cases h
      · rw [show (k == e.1) = false by simpa using hk] at h
        exact ih h q hq

theorem countEvictable_append_one (l : List (Nat × Slot)) (e : Nat × Slot) :
    countEvictable (l ++ [e]) =
      countEvictable l + (if e.2.evictable then 1 else 0) := by
  simp only [countEvictable, List.filter_append, List.length_append]
  cases he : e.2.evictable <;> simp [List.filter, he]

/-! Key predicates are preserved by the table operations. -/

theorem getD_mem_of_lt {α : Type} {l : List α} {i : Nat} (d : α) (h : i < l.length) :
    l.getD i d ∈ l := by
  rw [List.getD_eq_getElem l d h]
  exact List.getElem_mem h

theorem getD_of_le {α : Type} {l : List α} {i : Nat} (d : α) (h : l.length ≤ i) :
    l.getD i d = d := by
  rw [List.getD_eq_getElem?_getD, List.getElem?_eq_none h]
  rfl

theorem bucket_getD_keys {t : Table} {P : Nat → Prop} (h : arenaKeysP t P) (bid : Nat) :
    ∀ e ∈ (t.arena.getD bid default).list, P e.1 := by
  by_cases hb : bid < t.arena.length
  · exact h _ (getD_mem_of_lt default hb)
  · rw [getD_of_le default (by omega)]
    intro e he
    cases he

theorem updateFirst_keysP {P : Nat → Prop} {l : List (Nat × Nat)} {key v : Nat}
    (hl : ∀ e ∈ l, P e.1) : ∀ e ∈ updateFirst l key v, P e.1 := by
  induction l with
  | nil => intro e he; cases he
  | cons e0 rest ih =>
    intro e he
    rw [updateFirst] at he
    by_cases hk : e0.1 = key
    · rw [if_pos hk] at he
      rcases List.mem_cons.mp he with he | he
      · rw [he]
        exact hl e0 (List.mem_cons_self _ _)
      · exact hl e (List.mem_cons_of_mem _ he)
    · rw [if_neg hk] at he
      rcases List.mem_cons.mp he with he | he
      · rw [he]
        exact hl e0 (List.mem_cons_self _ _)
      · exact ih (fun q hq => hl q (List.mem_cons_of_mem _ hq)) e he

theorem insert_keysP {P : Nat → Prop} {b : Bucket} {key v : Nat} (hP : P key)
    (hb : ∀ e ∈ b.list, P e.1) : ∀ e ∈ (b.insert key v).2.list, P e.1 := by
  unfold Bucket.insert
  by_cases hfull : (b.list.length == b.size) = true
  · rw [if_pos hfull]
    exact hb
  · rw [if_neg hfull]
    by_cases hlk : (b.list.lookup key).isSome = true
    · rw [if_pos hlk]
      exact updateFirst_keysP hb
    · rw [if_neg hlk]
      intro e he
      rcases List.mem_append.mp he with he | he
      · exact hb e he
      · simp at he
        rw [he]
        exact hP

theorem removeKey_keysP {P : Nat → Prop} {b : Bucket} {key : Nat}
    (hb : ∀ e ∈ b.list, P e.1) : ∀ e ∈ (b.removeKey key).2.list, P e.1 := by
  unfold Bucket.removeKey
  by_cases hlk : (b.list.lookup key).isSome = true
  · rw [if_pos hlk]
    intro e he
    exact hb e ((List.eraseP_sublist _).mem he)
  · rw [if_neg hlk]
    exact hb

theorem arenaKeysP_setBucket {t : Table} {P : Nat → Prop} {bid : Nat} {b : Bucket}
    (h : arenaKeysP t P) (hb : ∀ e ∈ b.list, P e.1) : arenaKeysP (t.setBucket bid b) P := by
  intro b2 hb2
  rcases List.mem_or_eq_of_mem_set hb2 with hb2 | hb2
  · exact h b2 hb2
  · rw [hb2]
    exact hb

theorem redistStep_keysP {t : Table} {P : Nat → Prop} {bid : Nat} (e : Nat × Nat)
    (hPe : P e.1) (h : arenaKeysP t P) : arenaKeysP (redistStep bid t e) P := by
  unfold redistStep
  by_cases hc : t.dir.getD (t.IndexOf e.1) 0 ≠ bid
  · rw [if_pos hc]
    apply arenaKeysP_setBucket
    · apply arenaKeysP_setBucket h
      exact insert_keysP hPe (bucket_getD_keys h _)
    · apply removeKey_keysP
      apply bucket_getD_keys
      apply arenaKeysP_setBucket h
      exact insert_keysP hPe (bucket_getD_keys h _)
  · rw [if_neg hc]
    exact h

theorem redistFold_keysP {P : Nat → Prop} {bid : Nat} (items : List (Nat × Nat)) :
    ∀ t : Table, (∀ e ∈ items, P e.1) → arenaKeysP t P →
      arenaKeysP (items.foldl (redistStep bid) t) P := by
  induction items with
  | nil =>
    intro t _ h
    exact h
  | cons e rest ih =>
    intro t hall h
    rw [List.foldl_cons]
    exact ih _ (fun q hq => hall q (List.mem_cons_of_mem _ hq))
      (redistStep_keysP e (hall e (List.mem_cons_self _ _)) h)

theorem RedistributeBucket_keysP {t : Table} {P : Nat → Prop} (bid : Nat)
    (h : arenaKeysP t P) : arenaKeysP (t.RedistributeBucket bid) P :=
  redistFold_keysP _ t (bucket_getD_keys h bid) h

theorem incDepth_keysP {t : Table} {P : Nat → Prop} (bid : Nat)
    (h : arenaKeysP t P) : arenaKeysP (t.incDepth bid) P :=
  arenaKeysP_setBucket h (bucket_getD_keys h bid)

theorem DoubleDir_keysP {t : Table} {P : Nat → Prop} (idx : Nat)
    (h : arenaKeysP t P) : arenaKeysP (t.DoubleDir idx) P := by
  intro b2 hb2
  rcases List.mem_append.mp hb2 with hb2 | hb2
  · exact h b2 hb2
  · simp at hb2
    rw [hb2]
    intro e he
    cases he

theorem splitDouble_keysP {t : Table} {P : Nat → Prop} (idx : Nat)
    (h : arenaKeysP t P) : arenaKeysP (splitDouble t idx) P :=
  RedistributeBucket_keysP _ (incDepth_keysP _ (DoubleDir_keysP idx h))

theorem growArena_keysP {t t1 : Table} {P : Nat → Prop} {bsize gd : Nat}
    (h : arenaKeysP t1 P)
    (heq : t.arena = t1.arena ++ [Bucket.mk [] bsize gd]) : arenaKeysP t P := by
  intro b2 hb2
  rw [heq] at hb2
  rcases List.mem_append.mp hb2 with hb2 | hb2
  · exact h b2 hb2
  · simp at hb2
    rw [hb2]
    intro e he
    cases he

theorem splitLow_keysP {t : Table} {P : Nat → Prop} (idx bid : Nat)
    (h : arenaKeysP t P) : arenaKeysP (splitLow t idx bid) P := by
  unfold splitLow
  apply RedistributeBucket_keysP
  have h1 : arenaKeysP (t.incDepth bid) P := incDepth_keysP bid h
  intro b2 hb2
  rcases List.mem_append.mp hb2 with hb2 | hb2
  · exact h1 b2 hb2
  · simp at hb2
    rw [hb2]
    intro e he
    cases he

theorem splitHigh_keysP {t : Table} {P : Nat → Prop} (idx bid : Nat)
    (h : arenaKeysP t P) : arenaKeysP (splitHigh t idx bid) P := by
  unfold splitHigh
  apply RedistributeBucket_keysP
  have h1 : arenaKeysP (t.incDepth bid) P := incDepth_keysP bid h
  intro b2 hb2
  rcases List.mem_append.mp hb2 with hb2 | hb2
  · exact h1 b2 hb2
  · simp at hb2
    rw [hb2]
    intro e he
    cases he

theorem removeTable_keysP {t : Table} {P : Nat → Prop} (key : Nat)
    (h : arenaKeysP t P) : arenaKeysP (t.removeTable key).2 P :=
  arenaKeysP_setBucket h (removeKey_keysP (bucket_getD_keys h _))

/-! dirInBounds is preserved by the table operations. -/

theorem dir_getD_bound {t : Table} (h : dirInBounds t) (i : Nat) :
    t.dir.getD i 0 < t.arena.length := by
  by_cases hi : i < t.dir.length
  · exact h.2 _ (getD_mem_of_lt 0 hi)
  · rw [getD_of_le 0 (by omega)]
    exact h.1

theorem RedistributeBucket_dirInBounds {t : Table} (bid : Nat)
    (h : dirInBounds t) : dirInBounds (t.RedistributeBucket bid) := by
  obtain ⟨hd, hg, ha, _⟩ := RedistributeBucket_fields t bid
  constructor
  · rw [ha]
    exact h.1
  · intro i hi
    rw [ha]
    rw [hd] at hi
    exact h.2 i hi

theorem incDepth_dirInBounds {t : Table} (bid : Nat)
    (h : dirInBounds t) : dirInBounds (t.incDepth bid) := by
  constructor
  · show 0 < (t.arena.set bid _).length
    rw [List.length_set]
    exact h.1
  · intro i hi
    show i < (t.arena.set bid _).length
    rw [List.length_set]
    exact h.2 i hi

theorem splitDouble_dirInBounds {t : Table} (idx : Nat)
    (h : dirInBounds t) : dirInBounds (splitDouble t idx) := by
  apply RedistributeBucket_dirInBounds
  have halen : ((t.DoubleDir idx).incDepth ((t.DoubleDir idx).dir.getD idx 0)).arena.length =
      t.arena.length + 1 := by
    show ((t.arena ++ [Bucket.mk [] t.bucketSize (t.globalDepth + 1)]).set _ _).length = _
    rw [List.length_set]
    simp
  constructor
  · rw [halen]
    omega
  · intro i hi
    rw [halen]
    have hi2 : i ∈ (t.copiedDir.set (idx + 2 ^ t.globalDepth) t.arena.length) := hi
    rcases List.mem_or_eq_of_mem_set hi2 with hi3 | hi3
    · unfold Table.copiedDir at hi3
      rcases List.mem_append.mp hi3 with hi4 | hi4 <;>
      · obtain ⟨j, _, hj2⟩ := List.mem_map.mp hi4
        rw [← hj2]
        have := dir_getD_bound h j
        omega
    · omega

theorem splitLow_dirInBounds {t : Table} (idx bid : Nat)
    (h : dirInBounds t) : dirInBounds (splitLow t idx bid) := by
  apply RedistributeBucket_dirInBounds
  have halen : (({ t.incDepth bid with
      arena := (t.incDepth bid).arena ++ [Bucket.mk [] t.bucketSize t.globalDepth] } : Table)).arena.length =
      t.arena.length + 1 := by
    show ((t.arena.set bid _) ++ _).length = _
    simp
  constructor
  · show 0 < ((t.arena.set bid _) ++ _).length
    simp
  · intro i hi
    have hi2 : i ∈ ((t.incDepth bid).dir.set (idx + 2 ^ (t.globalDepth - 1))
        (t.incDepth bid).arena.length) := hi
    show i < ((t.arena.set bid _) ++ _).length
    simp only [List.length_append, List.length_set, List.length_cons, List.length_nil]
    rcases List.mem_or_eq_of_mem_set hi2 with hi3 | hi3
    · have : i < t.arena.length := h.2 i hi3
      omega
    · have : (t.incDepth bid).arena.length = t.arena.length := by
        show (t.arena.set bid _).length = _
        simp
      omega

theorem splitHigh_dirInBounds {t : Table} (idx bid : Nat)
    (h : dirInBounds t) : dirInBounds (splitHigh t idx bid) := by
  apply RedistributeBucket_dirInBounds
  constructor
  · show 0 < ((t.arena.set bid _) ++ _).length
    simp
  · intro i hi
    have hi2 : i ∈ ((t.incDepth bid).dir.set idx (t.incDepth bid).arena.length) := hi
    show i < ((t.arena.set bid _) ++ _).length
    simp only [List.length_append, List.length_set, List.length_cons, List.length_nil]
    rcases List.mem_or_eq_of_mem_set hi2 with hi3 | hi3
    · have : i < t.arena.length := h.2 i hi3
      omega
    · have : (t.incDepth bid).arena.length = t.arena.length := by
        show (t.arena.set bid _).length = _
        simp
      omega

theorem removeTable_dirInBounds {t : Table} (key : Nat)
    (h : dirInBounds t) : dirInBounds (t.removeTable key).2 := by
  constructor
  · show 0 < (t.arena.set _ _).length
    rw [List.length_set]
    exact h.1
  · intro i hi
    show i < (t.arena.set _ _).length
    rw [List.length_set]
    exact h.2 i hi

/-- If the inserted key is stored nowhere in the table, a successful
Insert makes it findable with the inserted value. -/
theorem insert_find : ∀ (fuel : Nat) {t t2 : Table} {key v : Nat},
    kNotIn t key → dirInBounds t → insertFuel fuel t key v = some t2 →
    t2.findTable key = some v := by
  intro fuel
  induction fuel with
  | zero =>
    intro t t2 key v _ _ h
    simp [insertFuel] at h
  | succ n ih =>
    intro t t2 key v hk hd h
    rw [insertFuel] at h
    have hbid : t.dir.getD (t.IndexOf key) 0 < t.arena.length := dir_getD_bound hd _
    have hfind : (t.arena.getD (t.dir.getD (t.IndexOf key) 0) default).find key = none := by
      apply lookup_none_of_keys
      exact bucket_getD_keys hk _
    rw [hfind] at h
    by_cases hfull : (t.arena.getD (t.dir.getD (t.IndexOf key) 0) default).isFull = true
    · rw [if_pos hfull] at h
      by_cases heq : (t.globalDepth ==
          (t.arena.getD (t.dir.getD (t.IndexOf key) 0) default).depth) = true
      · rw [if_pos heq] at h
        exact ih (splitDouble_keysP _ hk) (splitDouble_dirInBounds _ hd) h
      · rw [if_neg heq] at h
        by_cases hlt : t.IndexOf key < 2 ^ (t.globalDepth - 1)
        · rw [if_pos hlt] at h
          exact ih (splitLow_keysP _ _ hk) (splitLow_dirInBounds _ _ hd) h
        · rw [if_neg hlt] at h
          exact ih (splitHigh_keysP _ _ hk) (splitHigh_dirInBounds _ _ hd) h
    · rw [if_neg hfull] at h
      injection h with h2
      subst h2
      have hlk : ((t.arena.getD (t.dir.getD (t.IndexOf key) 0) default).list.lookup key)
          = none := by
        apply lookup_none_of_keys
        exact bucket_getD_keys hk _
      show (Table.bucketAt _ (Table.IndexOf _ key)).find key = some v
      have hidx : Table.IndexOf (t.setBucket (t.dir.getD (t.IndexOf key) 0)
          ((t.arena.getD (t.dir.getD (t.IndexOf key) 0) default).insert key v).2) key
          = t.IndexOf key := rfl
      rw [hidx]
      unfold Table.bucketAt Table.setBucket
      simp only []
      rw [getD_set_self _ _ hbid]
      unfold Bucket.insert Bucket.isFull at *
      rw [if_neg (by simpa using hfull), if_neg (by rw [hlk]; simp)]
      simp only []
      unfold Bucket.find
      exact lookup_append_last v hlk

/-! Claim theorems. -/

/-- C1: counterexample.  Page 0 is resident in frame 0 with pin count 1
and its dirty flag set; UnpinPage(0, false) succeeds and the dirty flag
comes out false, so a clean unpin does clear an existing dirty mark. -/
theorem C1_counterexample :
    (bpmC1c.pages.getD 0 default).pin = 1 ∧
    (bpmC1c.pages.getD 0 default).dirty = true ∧
    UnpinPgImp bpmC1c 0 false = some (true, bpmC1d) ∧
    (bpmC1d.pages.getD 0 default).dirty = false := by decide

/-- C2: inserting key 1 with value 10 and then again with value 20 leaves
Find returning the old value 10: the update path re-inserts the value
Bucket::Find wrote into `tmp`, not the caller's value. -/
theorem C2_insert_keeps_old_value :
    ((insertFuel 5 (initTable 4) 1 10).bind (fun t => insertFuel 5 t 1 20)).map
      (fun t => t.findTable 1) = some (some 10) := by decide

/-- C3: counterexample.  With k = 3, frame 0 (accessed at timestamps 0
and 1) and frame 1 (accessed at timestamp 2) are both evictable with
infinite K-distance; the claim picks frame 0 (earliest first access 0),
but Evict returns frame 1, preferring the smaller record count. -/
theorem C3_counterexample :
    rC3.k = 3 ∧
    rC3.slots.lookup 0 = some (Slot.mk [1, 0] 2 true) ∧
    rC3.slots.lookup 1 = some (Slot.mk [2] 1 true) ∧
    (Evict rC3).map Prod.fst = some 1 := by decide

/-- C4: after FetchPage(0) loaded the never-allocated page id 0 into
frame 0, NewPage returns a non-null frame (frame 1) holding the freshly
allocated page id 0, but the page table still maps id 0 to frame 0: the
insert of the fresh id hit the key FetchPage left behind and the update
path re-inserted the stale frame, so the claimed postcondition that the
new page id maps to the returned frame fails. -/
theorem C4_newpage_wrong_mapping :
    FetchPgImp 10 (initBPM 2 2 4) 0 = some (some 0, bpmC4a) ∧
    NewPgImp 10 bpmC4a = some (some (0, 1), bpmC4b) ∧
    (bpmC4b.pages.getD 1 default).pageId = 0 ∧
    (bpmC4b.pages.getD 1 default).pin = 1 ∧
    bpmC4b.table.findTable 0 = some 0 ∧
    bpmC4b.table.findTable 0 ≠ some 1 := by decide

/-- C5: after NewPage, a clean unpin and DeletePage of page 0, frame 0 is
on the free list with its page_id_ still the valid id 0, yet the page
table has no entry for 0: a frame holds a valid resident page id without
appearing in the table. -/
theorem C5_delete_leaves_stale_pageid :
    DeletePgImp bpmC5b 0 = some (true, bpmC5c) ∧
    (bpmC5c.pages.getD 0 default).pageId = 0 ∧
    (bpmC5c.pages.getD 0 default).pageId ≠ INVALIDPID ∧
    bpmC5c.table.findTable 0 = none ∧
    bpmC5c.freeList = [1, 0] := by decide

/-- C6: RecordAccess on an unseen frame creates a non-evictable slot yet
still executes curr_size_++, so after a single call on a fresh replacer
the state is reachable, Size() returns 1 while the number of evictable
slots is 0, refuting both the claimed invariant and the claim that
RecordAccess never changes the count. -/
theorem C6_size_mismatch :
    ReachableR rC6 ∧
    RecordAccess (initReplacer 10 2) 0 = some rC6 ∧
    Size (initReplacer 10 2) = 0 ∧ Size rC6 = 1 ∧
    countEvictable rC6.slots = 0 ∧
    rC6.slots.lookup 0 = some (Slot.mk [0] 1 false) :=
  ⟨ReachableR.acc (initReplacer 10 2) 0 rC6 (ReachableR.init 10 2) (by decide),
   by decide, by decide, by decide, by decide, by decide⟩

/-- C7: inserting key 3 into the bucket-size-1 table splits a full bucket
without doubling the directory: a fourth bucket is allocated (the arena
grows from 3 to 4) but GetNumBuckets stays at 3 instead of increasing by
one. -/
theorem C7_split_without_count :
    insertFuel 10 tblC7 3 103 = some tblC7b ∧
    tblC7.GetNumBuckets = 3 ∧ tblC7.arena.length = 3 ∧
    tblC7b.arena.length = 4 ∧ tblC7b.GetNumBuckets = 3 := by decide

/-- C9: for every reachable table state and every key, IndexOf is strictly
below the directory length, because the index is the hash masked to the
low global_depth bits and the directory always has 2^global_depth slots;
hence the dir_[idx] accesses in Find, Insert and Remove are in bounds. -/
theorem C9_indexof_lt (t : Table) (h : ReachableT t) (key : Nat) :
    t.IndexOf key < t.dir.length := by
  rw [reachable_dirPow h]
  unfold Table.IndexOf
  have h1 : key &&& (2 ^ t.globalDepth - 1) ≤ 2 ^ t.globalDepth - 1 := Nat.and_le_right
  have h2 : 0 < 2 ^ t.globalDepth := Nat.pos_pow_of_pos _ (by omega)
  omega

/-- C9 witness: the bound at a concrete reachable table and key. -/
theorem C9_indexof_lt_witness :
    (initTable 4).IndexOf 5 < (initTable 4).dir.length :=
  C9_indexof_lt (initTable 4) (ReachableT.init 4) 5

/-- C10: LRUKReplacer::Remove on a frame with no slot returns with no
state change; on a frame whose slot is not evictable the assertion fires;
on an evictable slot it erases the slot (a later lookup misses) and
decrements Size() by one. -/
theorem C10_remove_behavior (r : Replacer) (f : Nat) :
    (r.slots.lookup f = none → RemoveFrame r f = some r) ∧
    (∀ s, r.slots.lookup f = some s → s.evictable = false → RemoveFrame r f = none) ∧
    (∀ s, r.slots.lookup f = some s → s.evictable = true →
      ∃ r2, RemoveFrame r f = some r2 ∧ r2.slots.lookup f = none ∧
        Size r2 = Size r - 1) := by
  refine ⟨?_, ?_, ?_⟩
  · intro h
    simp [RemoveFrame, h]
  · intro s h hev
    simp [RemoveFrame, h, hev]
  · intro s h hev
    refine ⟨{ r with currSize := r.currSize - 1, slots := eraseSlot r.slots f }, ?_, ?_, rfl⟩
    · simp [RemoveFrame, h, hev]
    · exact eraseSlot_lookup_self r.slots f

/-- C10 witness: the three behaviours at a concrete replacer. -/
theorem C10_remove_behavior_witness :
    RemoveFrame rC10 9 = some rC10 ∧
    RemoveFrame rC10 6 = none ∧
    (∃ r2, RemoveFrame rC10 5 = some r2 ∧ r2.slots.lookup 5 = none ∧
      Size r2 = Size rC10 - 1) :=
  ⟨(C10_remove_behavior rC10 9).1 (by decide),
   (C10_remove_behavior rC10 6).2.1 ⟨[2], 1, false⟩ (by decide) rfl,
   (C10_remove_behavior rC10 5).2.2 ⟨[3, 1], 2, true⟩ (by decide) rfl⟩


theorem SetEvictable_spec {r : Replacer} {f : Nat} {s : Slot} (flag : Bool)
    (h : r.slots.lookup f = some s) :
    ∃ r2, SetEvictable r f flag = some r2 ∧
      r2.slots.lookup f = some { s with evictable := flag } := by
  unfold SetEvictable
  rw [h]
  simp only []
  exact ⟨_, rfl, updSlot_lookup_self _ h⟩

/-- C1 (amended): for a resident page with positive pin count, UnpinPage
returns true, decrements the pin count, marks the frame evictable exactly
when the count reaches zero, and assigns the dirty flag directly from the
argument, so a clean unpin clears an earlier dirty mark. -/
theorem C1_unpin_amended (b : BPM) (pid f : Nat) (d : Bool)
    (hres : b.table.findTable pid = some f)
    (hlen : f < b.pages.length)
    (hpin : 0 < (b.pages.getD f default).pin)
    (hslot : (b.pages.getD f default).pin = 1 → (b.repl.slots.lookup f).isSome = true) :
    ∃ b2, UnpinPgImp b pid d = some (true, b2) ∧
      (b2.pages.getD f default).pin = (b.pages.getD f default).pin - 1 ∧
      (b2.pages.getD f default).dirty = d ∧
      ((b.pages.getD f default).pin = 1 →
        ∃ s, b2.repl.slots.lookup f = some s ∧ s.evictable = true) := by
  unfold UnpinPgImp
  rw [hres]
  try simp only []
  rw [if_neg (show ¬ ((b.pages.getD f default).pin == 0) = true by
    simpa using Nat.pos_iff_ne_zero.mp hpin)]
  try simp only []
  rw [updPage_getD_self _ hlen]
  try simp only []
  by_cases hone : (b.pages.getD f default).pin = 1
  · rw [if_pos (show (((b.pages.getD f default).pin - 1) == 0) = true by simp only [beq_iff_eq]; omega)]
    obtain ⟨s, hs⟩ := Option.isSome_iff_exists.mp (hslot hone)
    obtain ⟨r2, hr2, hlook⟩ := SetEvictable_spec true hs
    rw [hr2]
    try simp only []
    refine ⟨_, rfl, ?_, ?_, ?_⟩
    · rw [updPage_getD_self _ (by rw [updPage_length]; exact hlen),
        updPage_getD_self _ hlen]
    · rw [updPage_getD_self _ (by rw [updPage_length]; exact hlen)]
    · intro _
      exact ⟨_, hlook, rfl⟩
  · rw [if_neg (show ¬ (((b.pages.getD f default).pin - 1) == 0) = true by simp only [beq_iff_eq]; omega)]
    try simp only []
    refine ⟨_, rfl, ?_, ?_, ?_⟩
    · rw [updPage_getD_self _ (by rw [updPage_length]; exact hlen),
        updPage_getD_self _ hlen]
    · rw [updPage_getD_self _ (by rw [updPage_length]; exact hlen)]
    · intro h1
      exact absurd h1 hone

/-- C1 witness: the amended statement at the concrete two-pin state. -/
theorem C1_unpin_amended_witness :
    ∃ b2, UnpinPgImp bpmC1b 0 true = some (true, b2) ∧
      (b2.pages.getD 0 default).pin = (bpmC1b.pages.getD 0 default).pin - 1 ∧
      (b2.pages.getD 0 default).dirty = true ∧
      ((bpmC1b.pages.getD 0 default).pin = 1 →
        ∃ s, b2.repl.slots.lookup 0 = some s ∧ s.evictable = true) :=
  C1_unpin_amended bpmC1b 0 0 true (by decide) (by decide) (by decide) (by decide)

/-! The divergence of Insert on the looping configuration. -/

theorem loopInv_idx {t : Table} {g : Nat} (hg : t.globalDepth = g) {j : Nat}
    (hj : j < 2 ^ g) : t.IndexOf j = j := by
  unfold Table.IndexOf
  rw [hg, Nat.and_pow_two_sub_one_eq_mod]
  exact Nat.mod_eq_of_lt hj

theorem loopInv_step {t : Table} {bid g v1 v3 : Nat}
    (h : LoopInvAt t bid g v1 v3) (n v : Nat) :
    insertFuel (n + 1) t 7 v = insertFuel n (splitDouble t 7) 7 v := by
  obtain ⟨hg, h3g, hdl, hbid, hd1, hd3, hd7, hb⟩ := h
  have h2g : (8 : Nat) ≤ 2 ^ g := by
    calc (8 : Nat) = 2 ^ 3 := by norm_num
    _ ≤ 2 ^ g := Nat.pow_le_pow_right (by norm_num) h3g
  have hidx : t.IndexOf 7 = 7 := loopInv_idx hg (by omega)
  have hfind : (Bucket.mk [(1, v1), (3, v3)] 2 g).find 7 = none := by
    simp [Bucket.find, List.lookup]
  have hfull : (Bucket.mk [(1, v1), (3, v3)] 2 g).isFull = true := by
    simp [Bucket.isFull]
  have hdep : (t.globalDepth == (Bucket.mk [(1, v1), (3, v3)] 2 g).depth) = true := by
    simp [hg]
  rw [insertFuel, hidx, hd7, hb, hfind]
  simp only [hfull, hdep, if_true]

theorem loopInv_preserved {t : Table} {bid g v1 v3 : Nat}
    (h : LoopInvAt t bid g v1 v3) : LoopInvAt (splitDouble t 7) bid (g + 1) v1 v3 := by
  obtain ⟨hg, h3g, hdl, hbid, hd1, hd3, hd7, hb⟩ := h
  have h2g : (8 : Nat) ≤ 2 ^ g := by
    calc (8 : Nat) = 2 ^ 3 := by norm_num
    _ ≤ 2 ^ g := Nat.pow_le_pow_right (by norm_num) h3g
  have hcop : ∀ j : Nat, j < 2 ^ g → (t.DoubleDir 7).dir.getD j 0 = t.dir.getD j 0 := by
    intro j hj
    show (t.copiedDir.set (7 + 2 ^ t.globalDepth) t.arena.length).getD j 0 = _
    rw [getD_set_ne _ _ _ (by rw [hg]; omega)]
    unfold Table.copiedDir
    rw [getD_append_left _ (by rw [List.length_map, List.length_range, hg]; exact hj)]
    rw [rangeMap_getD _ (by rw [hg]; exact hj)]
  have hT1dir1 : (t.DoubleDir 7).dir.getD 1 0 = bid := by
    rw [hcop 1 (by omega)]
    exact hd1
  have hT1dir3 : (t.DoubleDir 7).dir.getD 3 0 = bid := by
    rw [hcop 3 (by omega)]
    exact hd3
  have hT1dir7 : (t.DoubleDir 7).dir.getD 7 0 = bid := by
    rw [hcop 7 (by omega)]
    exact hd7
  have ht1g : (t.DoubleDir 7).globalDepth = g + 1 := by
    show t.globalDepth + 1 = g + 1
    rw [hg]
  have ht1alen : (t.DoubleDir 7).arena.length = t.arena.length + 1 := by
    show (t.arena ++ [Bucket.mk [] t.bucketSize (t.globalDepth + 1)]).length = _
    simp
  have ht1arena : (t.DoubleDir 7).arena.getD bid default = Bucket.mk [(1, v1), (3, v3)] 2 g := by
    show (t.arena ++ [Bucket.mk [] t.bucketSize (t.globalDepth + 1)]).getD bid default = _
    rw [getD_append_left _ hbid]
    exact hb
  have ht1dl : (t.DoubleDir 7).dir.length = 2 ^ g + 2 ^ g := by
    show (t.copiedDir.set (7 + 2 ^ t.globalDepth) t.arena.length).length = _
    rw [List.length_set, copiedDir_length, hg]
  unfold splitDouble
  simp only []
  rw [hT1dir7]
  have ht2arena : ((t.DoubleDir 7).incDepth bid).arena.getD bid default =
      Bucket.mk [(1, v1), (3, v3)] 2 (g + 1) := by
    show ((t.DoubleDir 7).arena.set bid _).getD bid default = _
    rw [getD_set_self _ _ (by omega)]
    rw [ht1arena]
  have ht2g : ((t.DoubleDir 7).incDepth bid).globalDepth = g + 1 := ht1g
  have ht2dir : ((t.DoubleDir 7).incDepth bid).dir = (t.DoubleDir 7).dir := rfl
  have ht2dir7 : ((t.DoubleDir 7).incDepth bid).dir.getD 7 0 = bid := hT1dir7
  rw [ht2dir7]
  have hstep1 : redistStep bid ((t.DoubleDir 7).incDepth bid) (1, v1) =
      (t.DoubleDir 7).incDepth bid := by
    unfold redistStep
    rw [if_neg]
    simp only [ne_eq, Decidable.not_not]
    show ((t.DoubleDir 7).incDepth bid).dir.getD (((t.DoubleDir 7).incDepth bid).IndexOf 1) 0 = bid
    rw [loopInv_idx ht2g (by omega)]
    rw [ht2dir]
    exact hT1dir1
  have hstep3 : redistStep bid ((t.DoubleDir 7).incDepth bid) (3, v3) =
      (t.DoubleDir 7).incDepth bid := by
    unfold redistStep
    rw [if_neg]
    simp only [ne_eq, Decidable.not_not]
    show ((t.DoubleDir 7).incDepth bid).dir.getD (((t.DoubleDir 7).incDepth bid).IndexOf 3) 0 = bid
    rw [loopInv_idx ht2g (by omega)]
    rw [ht2dir]
    exact hT1dir3
  have hred : ((t.DoubleDir 7).incDepth bid).RedistributeBucket bid =
      (t.DoubleDir 7).incDepth bid := by
    unfold Table.RedistributeBucket
    rw [ht2arena]
    simp only [List.foldl_cons, List.foldl_nil]
    rw [hstep1, hstep3]
  rw [hred]
  refine ⟨ht2g, by omega, ?_, ?_, ?_, ?_, ?_, ht2arena⟩
  · rw [show ((t.DoubleDir 7).incDepth bid).dir.length = (t.DoubleDir 7).dir.length from rfl,
      ht1dl, pow_succ]
    omega
  · rw [show ((t.DoubleDir 7).incDepth bid).arena.length = (t.DoubleDir 7).arena.length from
      List.length_set _ _ _, ht1alen]
    omega
  · rw [ht2dir]
    exact hT1dir1
  · rw [ht2dir]
    exact hT1dir3
  · rw [ht2dir]
    exact hT1dir7

theorem loopInv_none (v : Nat) : ∀ (n : Nat) (t : Table) (bid g v1 v3 : Nat),
    LoopInvAt t bid g v1 v3 → insertFuel n t 7 v = none := by
  intro n
  induction n with
  | zero =>
    intro t bid g v1 v3 _
    rfl
  | succ m ih =>
    intro t bid g v1 v3 h
    rw [loopInv_step h m v]
    exact ih _ bid (g + 1) v1 v3 (loopInv_preserved h)

/-- C8: Insert does not terminate on every reachable state.  After the
nine inserts building tblC8, the bucket holding keys 1 and 3 is full at
local depth = global depth behind directory slots 1, 3 and 7, and
Insert(7) recurses forever: for every fuel bound the recursion is still
running (each iteration doubles the directory and retries the same full
bucket), refuting the claim that the per-iteration depth increase makes
Insert return after finitely many iterations. -/
theorem C8_insert_diverges (n v : Nat) : insertFuel n tblC8 7 v = none :=
  loopInv_none v n tblC8 1 4 21 23 (by decide)

/-! The full loop invariant of Evict: the tracked victim is optimal in
the order the code realises. -/

theorem evictStep_inv {k : Nat} (hk : k ≤ longSentinel) {procd : List (Nat × Slot)}
    {acc : EvAcc} (e : Nat × Slot) (h : EvInv k procd acc) :
    EvInv k (procd ++ [e]) (evictStep k acc e) := by
  obtain ⟨hF, hT⟩ := h
  have hmem : ∀ q ∈ procd, q ∈ procd ++ [e] := fun q hq => List.mem_append_left _ hq
  have hmeme : e ∈ procd ++ [e] := List.mem_append_right _ (by simp)
  unfold evictStep
  by_cases h0 : (e.2.recordNums == 0 || !e.2.evictable) = true
  · rw [if_pos h0]
    have hnc : ¬ isCand e := by
      simp only [Bool.or_eq_true, beq_iff_eq, Bool.not_eq_true'] at h0
      intro hc
      rcases h0 with h0 | h0
      · exact hc.2 h0
      · rw [hc.1] at h0
        cases h0
    constructor
    · intro hf
      obtain ⟨ha, hall⟩ := hF hf
      refine ⟨ha, ?_⟩
      intro q hq hqc
      rcases List.mem_append.mp hq with hq | hq
      · exact hall q hq hqc
      · simp at hq
        rw [hq] at hqc
        exact absurd hqc hnc
    · intro hf
      obtain ⟨s, hs, hc, hmode⟩ := hT hf
      refine ⟨s, hmem _ hs, hc, ?_⟩
      rcases hmode with ⟨m1, m2, m3, m4⟩ | ⟨m1, m2, m3, m4, m5, m6⟩
      · refine Or.inl ⟨m1, m2, m3, ?_⟩
        intro q hq hqc hqi
        rcases List.mem_append.mp hq with hq | hq
        · exact m4 q hq hqc hqi
        · simp at hq
          rw [hq] at hqc
          exact absurd hqc hnc
      · refine Or.inr ⟨m1, m2, m3, m4, ?_, ?_⟩
        · intro q hq hqc
          rcases List.mem_append.mp hq with hq | hq
          · exact m5 q hq hqc
          · simp at hq
            rw [hq] at hqc
            exact absurd hqc hnc
        · intro q hq hqc
          rcases List.mem_append.mp hq with hq | hq
          · exact m6 q hq hqc
          · simp at hq
            rw [hq] at hqc
            exact absurd hqc hnc
  · have hnz : e.2.recordNums ≠ 0 := by
      simp only [Bool.or_eq_true, beq_iff_eq, Bool.not_eq_true'] at h0
      push_neg at h0
      exact h0.1
    have hev : e.2.evictable = true := by
      simp only [Bool.or_eq_true, beq_iff_eq, Bool.not_eq_true'] at h0
      push_neg at h0
      exact Bool.not_eq_false _ ▸ (by simpa using h0.2)
    have hcand : isCand e := ⟨hev, hnz⟩
    rw [if_neg h0]
    by_cases h1 : e.2.recordNums < k
    · rw [if_pos h1]
      by_cases h2 : e.2.recordNums < acc.minRecordNums
      · rw [if_pos h2]
        constructor
        · intro hf
          cases hf
        · intro _
          refine ⟨e.2, by simpa using hmeme, hcand, Or.inl ⟨rfl, h1, rfl, ?_⟩⟩
          intro q hq hqc hqi
          rcases List.mem_append.mp hq with hq | hq
          · by_cases hf : acc.flag = true
            · obtain ⟨s, _, _, hmode⟩ := hT hf
              rcases hmode with ⟨m1, _, _, m4⟩ | ⟨m1, _, _, _, m5, _⟩
              · rcases m4 q hq hqc hqi with hlt | ⟨heq2, _⟩
                · exact Or.inl (by omega)
                · exact Or.inl (by omega)
              · exact absurd hqi (m5 q hq hqc)
            · obtain ⟨_, hall⟩ := hF (by simpa using hf)
              exact absurd hqi (hall q hq hqc).1
          · simp at hq
            rw [hq]
            exact Or.inr ⟨rfl, le_refl _⟩
      · rw [if_neg h2]
        by_cases h3 : (e.2.recordNums == acc.minRecordNums &&
            decide (frontOf e.2 < acc.minTimestamp)) = true
        · rw [if_pos h3]
          simp only [Bool.and_eq_true, beq_iff_eq, decide_eq_true_eq] at h3
          obtain ⟨heq, hlt⟩ := h3
          by_cases hf : acc.flag = true
          · obtain ⟨s, hsmem, hsc, hmode⟩ := hT hf
            rcases hmode with ⟨m1, m2, m3, m4⟩ | ⟨m1, _, _, _, _, _⟩
            · constructor
              · intro hff
                cases hff
              · intro _
                refine ⟨e.2, by simpa using hmeme, hcand,
                  Or.inl ⟨by show acc.minRecordNums = e.2.recordNums; omega, h1, rfl, ?_⟩⟩
                intro q hq hqc hqi
                rcases List.mem_append.mp hq with hq | hq
                · rcases m4 q hq hqc hqi with hlt2 | ⟨heq2, hle2⟩
                  · exact Or.inl (by omega)
                  · refine Or.inr ⟨by omega, ?_⟩
                    rw [m3] at hlt
                    omega
                · simp at hq
                  rw [hq]
                  exact Or.inr ⟨rfl, le_refl _⟩
            · exfalso
              omega
          · exfalso
            obtain ⟨ha, _⟩ := hF (by simpa using hf)
            rw [ha] at heq
            simp only [initAcc] at heq
            unfold longSentinel at hk heq
            omega
        · rw [if_neg h3]
          simp only [Bool.and_eq_true, beq_iff_eq, decide_eq_true_eq, not_and, not_lt] at h3
          by_cases hf : acc.flag = true
          · obtain ⟨s, hsmem, hsc, hmode⟩ := hT hf
            rcases hmode with ⟨m1, m2, m3, m4⟩ | ⟨m1, _, _, _, _, _⟩
            · constructor
              · intro hff
                rw [hff] at hf
                cases hf
              · intro _
                refine ⟨s, hmem _ hsmem, hsc, Or.inl ⟨m1, m2, m3, ?_⟩⟩
                intro q hq hqc hqi
                rcases List.mem_append.mp hq with hq | hq
                · exact m4 q hq hqc hqi
                · simp at hq
                  rw [hq]
                  by_cases hse : s.recordNums < e.2.recordNums
                  · exact Or.inl hse
                  · have hee : e.2.recordNums = s.recordNums := by omega
                    refine Or.inr ⟨hee.symm, ?_⟩
                    have h6 := h3 (by omega)
                    rw [m3] at h6
                    omega
            · exfalso
              omega
          · exfalso
            obtain ⟨ha, _⟩ := hF (by simpa using hf)
            rw [ha] at h2
            simp only [initAcc] at h2
            unfold longSentinel at hk h2
            omega
    · rw [if_neg h1]
      by_cases h2 : acc.minRecordNums < k
      · rw [if_pos h2]
        by_cases hf : acc.flag = true
        · obtain ⟨s, hsmem, hsc, hmode⟩ := hT hf
          rcases hmode with ⟨m1, m2, m3, m4⟩ | ⟨m1, _, _, _, _, _⟩
          · constructor
            · intro hff
              rw [hff] at hf
              cases hf
            · intro _
              refine ⟨s, hmem _ hsmem, hsc, Or.inl ⟨m1, m2, m3, ?_⟩⟩
              intro q hq hqc hqi
              rcases List.mem_append.mp hq with hq | hq
              · exact m4 q hq hqc hqi
              · simp at hq
                rw [hq] at hqi
                exact absurd hqi h1
          · exfalso
            omega
        · exfalso
          obtain ⟨ha, _⟩ := hF (by simpa using hf)
          rw [ha] at h2
          simp only [initAcc] at h2
          unfold longSentinel at hk h2
          omega
      · rw [if_neg h2]
        by_cases h3 : sub64 (frontOf e.2) (backOf e.2) > acc.maxDistance
        · rw [if_pos h3]
          constructor
          · intro hff
            cases hff
          · intro _
            by_cases hf : acc.flag = true
            · obtain ⟨s, hsmem, hsc, hmode⟩ := hT hf
              rcases hmode with ⟨m1, m2, _, _⟩ | ⟨m1, m2, m3, m4, m5, m6⟩
              · exfalso
                omega
              · refine ⟨e.2, by simpa using hmeme, hcand,
                  Or.inr ⟨rfl, h1, rfl, ?_, ?_, ?_⟩⟩
                · show 0 < sub64 (frontOf e.2) (backOf e.2)
                  omega
                · intro q hq hqc
                  rcases List.mem_append.mp hq with hq | hq
                  · exact m5 q hq hqc
                  · simp at hq
                    rw [hq]
                    exact h1
                · intro q hq hqc
                  rcases List.mem_append.mp hq with hq | hq
                  · have h6 := m6 q hq hqc
                    show spanOf q ≤ sub64 (frontOf e.2) (backOf e.2)
                    omega
                  · simp at hq
                    rw [hq]
                    exact le_refl _
            · obtain ⟨ha, hall⟩ := hF (by simpa using hf)
              refine ⟨e.2, by simpa using hmeme, hcand,
                Or.inr ⟨rfl, h1, rfl, ?_, ?_, ?_⟩⟩
              · show 0 < sub64 (frontOf e.2) (backOf e.2)
                rw [ha] at h3
                simp only [initAcc] at h3
                omega
              · intro q hq hqc
                rcases List.mem_append.mp hq with hq | hq
                · exact (hall q hq hqc).1
                · simp at hq
                  rw [hq]
                  exact h1
              · intro q hq hqc
                rcases List.mem_append.mp hq with hq | hq
                · have h6 := (hall q hq hqc).2
                  show spanOf q ≤ sub64 (frontOf e.2) (backOf e.2)
                  omega
                · simp at hq
                  rw [hq]
                  exact le_refl _
        · rw [if_neg h3]
          by_cases hf : acc.flag = true
          · obtain ⟨s, hsmem, hsc, hmode⟩ := hT hf
            rcases hmode with ⟨m1, m2, _, _⟩ | ⟨m1, m2, m3, m4, m5, m6⟩
            · exfalso
              omega
            · constructor
              · intro hff
                rw [hff] at hf
                cases hf
              · intro _
                refine ⟨s, hmem _ hsmem, hsc, Or.inr ⟨m1, m2, m3, m4, ?_, ?_⟩⟩
                · intro q hq hqc
                  rcases List.mem_append.mp hq with hq | hq
                  · exact m5 q hq hqc
                  · simp at hq
                    rw [hq] at *
                    exact h1
                · intro q hq hqc
                  rcases List.mem_append.mp hq with hq | hq
                  · exact m6 q hq hqc
                  · simp at hq
                    rw [hq]
                    unfold spanOf
                    omega
          · constructor
            · intro hff
              obtain ⟨ha, hall⟩ := hF (by simpa using hf)
              refine ⟨ha, ?_⟩
              intro q hq hqc
              rcases List.mem_append.mp hq with hq | hq
              · exact hall q hq hqc
              · simp at hq
                rw [hq]
                refine ⟨h1, ?_⟩
                obtain ⟨ha2, _⟩ := hF (by simpa using hf)
                rw [ha2] at h3
                simp only [initAcc] at h3
                unfold spanOf
                omega
            · intro hff
              rw [hff] at hf
              exact absurd rfl hf

theorem evictLoop_inv {k : Nat} (hk : k ≤ longSentinel) (l : List (Nat × Slot)) :
    ∀ (acc : EvAcc) (procd : List (Nat × Slot)), EvInv k procd acc →
      EvInv k (procd ++ l) (l.foldl (evictStep k) acc) := by
  induction l with
  | nil =>
    intro acc procd h
    simpa using h
  | cons e rest ih =>
    intro acc procd h
    rw [List.foldl_cons]
    have h2 := ih (evictStep k acc e) (procd ++ [e]) (evictStep_inv hk e h)
    simpa using h2

theorem evict_inv (r : Replacer) (hk : r.k ≤ longSentinel) :
    EvInv r.k r.slots (r.slots.foldl (evictStep r.k) initAcc) := by
  have h0 : EvInv r.k [] initAcc := by
    constructor
    · intro _
      exact ⟨rfl, by intro q hq; cases hq⟩
    · intro hf
      cases hf
  have h2 := evictLoop_inv hk r.slots initAcc [] h0
  simpa using h2

/-- A slot that is no candidate, or a finite-distance candidate with zero
span, leaves the untouched accumulator untouched. -/
theorem evictStep_initAcc {k : Nat} (hk : k ≤ longSentinel) (q : Nat × Slot)
    (hq : isCand q → ¬ isInf k q ∧ spanOf q = 0) :
    evictStep k initAcc q = initAcc := by
  unfold evictStep
  by_cases hc : (q.2.recordNums == 0 || !q.2.evictable) = true
  · rw [if_pos hc]
  · rw [if_neg hc]
    simp only [Bool.or_eq_true, beq_iff_eq, Bool.not_eq_true', not_or] at hc
    have hcand : isCand q := by
      unfold isCand
      refine ⟨?_, hc.1⟩
      cases hb : q.2.evictable
      · exact absurd hb hc.2
      · rfl
    obtain ⟨hni, hsp⟩ := hq hcand
    unfold isInf at hni
    rw [if_neg (by simpa using hni)]
    rw [if_neg (show ¬ initAcc.minRecordNums < k by
      show ¬ longSentinel < k
      omega)]
    simp only []
    unfold spanOf at hsp
    rw [if_neg (by omega)]

/-- Folding the Evict loop over slots that are all non-candidates or
finite zero-span candidates never sets the flag. -/
theorem evictLoop_initAcc {k : Nat} (hk : k ≤ longSentinel) :
    ∀ l : List (Nat × Slot), (∀ q ∈ l, isCand q → ¬ isInf k q ∧ spanOf q = 0) →
      l.foldl (evictStep k) initAcc = initAcc := by
  intro l
  induction l with
  | nil => intro _; rfl
  | cons e rest ih =>
    intro hall
    rw [List.foldl_cons, evictStep_initAcc hk e (hall e (List.mem_cons_self _ _))]
    exact ih (fun q hq => hall q (List.mem_cons_of_mem _ hq))

/-- C3 (amended): on success Evict returns an evictable slot with
nonempty history that no other such slot beats in the code's order (an
infinite-distance candidate beats any finite one; among infinite ones
fewer recorded accesses, ties by the smaller most-recent timestamp; among
finite ones a larger front-minus-back span); Evict fails exactly when no
infinite candidate exists and every finite candidate has zero span — in
particular it returns false in that situation even when evictable frames
exist. -/
theorem C3_evict_amended (r : Replacer) (hk : r.k ≤ longSentinel) :
    (∀ f r2, Evict r = some (f, r2) → ∃ s, (f, s) ∈ r.slots ∧ isCand (f, s) ∧
      ∀ q ∈ r.slots, ¬ better r.k q (f, s)) ∧
    (Evict r = none → ∀ q ∈ r.slots, isCand q → ¬ isInf r.k q ∧ spanOf q = 0) ∧
    ((∀ q ∈ r.slots, isCand q → ¬ isInf r.k q ∧ spanOf q = 0) → Evict r = none) := by
  have hinv := evict_inv r hk
  refine ⟨?_, ?_, ?_⟩
  · intro f r2 h
    unfold Evict at h
    by_cases hf : (r.slots.foldl (evictStep r.k) initAcc).flag = true
    · rw [if_pos hf] at h
      simp only [Option.some.injEq, Prod.mk.injEq] at h
      obtain ⟨hres, _⟩ := h
      obtain ⟨s, hmem2, hcand2, hmode⟩ := hinv.2 hf
      rw [hres] at hmem2 hcand2 hmode
      refine ⟨s, hmem2, hcand2, ?_⟩
      intro q hq hbet
      simp only [better, isInf] at hbet
      obtain ⟨hqc, hcase⟩ := hbet
      rcases hmode with ⟨m1, m2, m3, m4⟩ | ⟨m1, m2, m3, m4, m5, m6⟩
      · rcases hcase with ⟨_, hni⟩ | ⟨hqi, _, hlex⟩ | ⟨_, hni, _⟩
        · exact hni m2
        · have hm := m4 q hq hqc hqi
          rcases hm with hlt | ⟨heq2, hle2⟩ <;> rcases hlex with hlex | ⟨hx1, hx2⟩ <;> omega
        · exact hni m2
      · rcases hcase with ⟨hqi, _⟩ | ⟨hqi, _, _⟩ | ⟨_, _, hsp⟩
        · exact (m5 q hq hqc) hqi
        · exact (m5 q hq hqc) hqi
        · have h5 := m6 q hq hqc
          rw [m3] at h5
          omega
    · rw [if_neg hf] at h
      cases h
  · intro h q hq hqc
    unfold Evict at h
    by_cases hf : (r.slots.foldl (evictStep r.k) initAcc).flag = true
    · rw [if_pos hf] at h
      cases h
    · obtain ⟨_, hall⟩ := hinv.1 (by simpa using hf)
      exact hall q hq hqc
  · intro hall
    unfold Evict
    try simp only []
    rw [evictLoop_initAcc hk r.slots hall]
    rfl

/-- C3 witness: the amended optimality at the concrete replacer rC3,
whose Evict selects frame 1. -/
theorem C3_evict_amended_witness :
    ∃ s, (1, s) ∈ rC3.slots ∧ isCand (1, s) ∧
      ∀ q ∈ rC3.slots, ¬ better rC3.k q (1, s) :=
  (C3_evict_amended rC3 (by decide)).1 1 ((Evict rC3).getD (0, rC3)).2 (by decide)

theorem arenaKeysP_mono {t : Table} {P Q : Nat → Prop} (hPQ : ∀ x, P x → Q x)
    (h : arenaKeysP t P) : arenaKeysP t Q :=
  fun b hb e he => hPQ _ (h b hb e he)

theorem RecordAccess_lookup {r : Replacer} {f : Nat} {r1 : Replacer}
    (h : RecordAccess r f = some r1) : ∃ s, r1.slots.lookup f = some s := by
  unfold RecordAccess at h
  cases hlk : r.slots.lookup f with
  | none =>
    rw [hlk] at h
    simp only [] at h
    by_cases hsz : r.currSize < r.replacerSize
    · rw [if_pos hsz] at h
      injection h with h2
      subst h2
      exact ⟨_, lookup_append_last _ hlk⟩
    · rw [if_neg hsz] at h
      cases h
  | some s =>
    rw [hlk] at h
    simp only [] at h
    injection h with h2
    subst h2
    exact ⟨_, updSlot_lookup_self _ hlk⟩

theorem newPgCont_spec (fuel : Nat) (b1 : BPM) (f : Nat) (res : Option (Nat × Nat)) (b2 : BPM)
    (hflen : f < b1.pages.length)
    (hkeys : tableKeysBelow b1.table b1.nextPageId)
    (hdir : dirInBounds b1.table)
    (hres : newPgCont fuel b1 f = some (res, b2)) :
    res = some (b1.nextPageId, f) ∧
    b2.nextPageId = b1.nextPageId + 1 ∧
    (b2.pages.getD f default).pageId = b1.nextPageId ∧
    (b2.pages.getD f default).pin = 1 ∧
    (b2.pages.getD f default).data = 0 ∧
    (b2.pages.getD f default).dirty = (b1.pages.getD f default).dirty ∧
    b2.table.findTable b1.nextPageId = some f ∧
    (∃ s, b2.repl.slots.lookup f = some s ∧ s.evictable = false) := by
  unfold newPgCont at hres
  simp only [] at hres
  cases hins : insertFuel fuel
      ((b1.table.removeTable (b1.pages.getD f default).pageId).2) b1.nextPageId f with
  | none =>
    rw [hins] at hres
    cases hres
  | some tb =>
    rw [hins] at hres
    simp only [] at hres
    cases hra : RecordAccess b1.repl f with
    | none =>
      rw [hra] at hres
      cases hres
    | some r1 =>
      rw [hra] at hres
      simp only [] at hres
      cases hse : SetEvictable r1 f false with
      | none =>
        rw [hse] at hres
        cases hres
      | some r2 =>
        rw [hse] at hres
        simp only [Option.some.injEq, Prod.mk.injEq] at hres
        obtain ⟨hres1, hres2⟩ := hres
        subst hres2
        refine ⟨hres1.symm, rfl, ?_, ?_, ?_, ?_, ?_, ?_⟩
        · simp only []
          rw [updPage_getD_self _ (by rw [updPage_length]; exact hflen),
            updPage_getD_self _ hflen]
        · simp only []
          rw [updPage_getD_self _ (by rw [updPage_length]; exact hflen),
            updPage_getD_self _ hflen]
        · simp only []
          rw [updPage_getD_self _ (by rw [updPage_length]; exact hflen),
            updPage_getD_self _ hflen]
        · simp only []
          rw [updPage_getD_self _ (by rw [updPage_length]; exact hflen),
            updPage_getD_self _ hflen]
        · show tb.findTable b1.nextPageId = some f
          have hkn : arenaKeysP ((b1.table.removeTable (b1.pages.getD f default).pageId).2)
              (fun x => x ≠ b1.nextPageId) :=
            arenaKeysP_mono (fun x hx => by omega) (removeTable_keysP _ hkeys)
          exact insert_find fuel hkn (removeTable_dirInBounds _ hdir) hins
        · obtain ⟨s1, hs1⟩ := RecordAccess_lookup hra
          obtain ⟨r2x, hr2x, hlook⟩ := SetEvictable_spec false hs1
          rw [hse] at hr2x
          injection hr2x with hr2e
          show ∃ s, r2.slots.lookup f = some s ∧ s.evictable = false
          rw [hr2e]
          exact ⟨_, hlook, rfl⟩


end BusTub
